import Mathlib

/-!
# SPSC_Queue: a single-producer single-consumer ring buffer

Shallow embedding of `src/spsc_queue.h`.

* `std::size_t` is a 64-bit unsigned integer: values are naturals below `2 ^ 64` and
  `+`, `-` wrap modulo `2 ^ 64` (`sizeAdd`, `sizeSub`).
* `T buffer[N]` is a list of slots; indexing a slot outside the list is undefined behaviour
  in C++ and is modelled by the result `none`.
* `push` / `pop` are the member functions run without interruption; `Sys.stepPush` /
  `Sys.stepPop` run the same statements one atomic access at a time, so that the calls of a
  producer and a consumer can be interleaved.
-/

/-! ## Machine arithmetic -/

/-- Number of values of a 64-bit `std::size_t`. -/
def SIZE_MOD : Nat := 2 ^ 64

/-- Addition `a + b` on `std::size_t`. -/
def sizeAdd (a b : Nat) : Nat := (a + b) % SIZE_MOD

/-- Subtraction `a - b` on `std::size_t` (wraps below zero). -/
def sizeSub (a b : Nat) : Nat := (a + SIZE_MOD - b % SIZE_MOD) % SIZE_MOD

/-- The condition of line 15, `static_assert((N & (N - 1)) == 0, ...)`. -/
def capacityCheck (N : Nat) : Bool := (N &&& sizeSub N 1) == 0

/-- The cursor successor `(i + 1) & (N - 1)` of line 23 (push) and line 45 (pop). -/
def nextIndex (N i : Nat) : Nat := sizeAdd i 1 &&& sizeSub N 1

/-! ## The queue object and its two member functions -/

/-- The data members of `SPSC_Queue<T, N>` (lines 16-17). -/
structure SPSC_Queue (T : Type) (N : Nat) where
  head : Nat
  tail : Nat
  buffer : List T
deriving DecidableEq, Repr

namespace SPSC_Queue

variable {T : Type} {N : Nat}

/-- A freshly constructed queue: `head{ 0 }, tail{ 0 }`; the default-initialised array
`T buffer[N]` holds the unspecified values `slots`. -/
def fresh (slots : List T) : SPSC_Queue T N := ⟨0, 0, slots⟩

/-- Member function `bool push(const T& v)`, lines 20-33. The result is the returned flag
and the queue afterwards; `none` is an access outside `buffer`. -/
def push (q : SPSC_Queue T N) (v : T) : Option (Bool × SPSC_Queue T N) :=
  let t := q.tail
  let n := nextIndex N t
  if n = q.head then
    some (false, q)
  else if t < q.buffer.length then
    some (true, { q with buffer := q.buffer.set t v, tail := n })
  else
    none

/-- Member function `bool pop(T& out)`, lines 35-47. The result is the returned flag, the
value of `out` afterwards and the queue afterwards; `none` is an access outside `buffer`. -/
def pop (q : SPSC_Queue T N) (out : T) : Option (Bool × T × SPSC_Queue T N) :=
  let h := q.head
  if h = q.tail then
    some (false, out, q)
  else
    match q.buffer[h]? with
    | some x => some (true, x, { q with head := nextIndex N h })
    | none => none

/-- Both cursors index the array and the array has `N` slots. -/
def WF (q : SPSC_Queue T N) : Prop :=
  q.head < N ∧ q.tail < N ∧ q.buffer.length = N

end SPSC_Queue

/-! ## Sequences of calls -/

/-- One call on the queue: `push(v)`, or `pop(out)` with the value `out` holds before. -/
inductive Op (T : Type) where
  | push (v : T)
  | pop (out : T)
deriving DecidableEq, Repr

/-- What a call lets its caller observe: the returned flag, and for `pop` the value of
`out` after the call. -/
inductive Res (T : Type) where
  | push (ok : Bool)
  | pop (ok : Bool) (out : T)
deriving DecidableEq, Repr

namespace SPSC_Queue

variable {T : Type} {N : Nat}

/-- Apply calls one after another, collecting what each call returns. -/
def run (q : SPSC_Queue T N) : List (Op T) → Option (List (Res T) × SPSC_Queue T N)
  | [] => some ([], q)
  | Op.push v :: ops =>
    match q.push v with
    | none => none
    | some (b, q1) =>
      match run q1 ops with
      | none => none
      | some (rs, q2) => some (Res.push b :: rs, q2)
  | Op.pop out :: ops =>
    match q.pop out with
    | none => none
    | some (b, x, q1) =>
      match run q1 ops with
      | none => none
      | some (rs, q2) => some (Res.pop b x :: rs, q2)

end SPSC_Queue

/-- The values of the pushes that returned `true`, in call order. -/
def acceptedValues {T : Type} : List (Op T) → List (Res T) → List T
  | Op.push v :: ops, Res.push true :: rs => v :: acceptedValues ops rs
  | _ :: ops, _ :: rs => acceptedValues ops rs
  | _, _ => []

/-- The values written to `out` by the pops that returned `true`, in call order. -/
def deliveredValues {T : Type} : List (Res T) → List T
  | Res.pop true x :: rs => x :: deliveredValues rs
  | _ :: rs => deliveredValues rs
  | [] => []

/-! ## The abstract bounded FIFO of the specification -/

namespace BoundedFifo

variable {T : Type}

/-- Specification side: `push` on a FIFO list bounded to `N - 1` elements appends `v` and
returns `true` iff the list has fewer than `N - 1` elements. -/
def push (N : Nat) (l : List T) (v : T) : Bool × List T :=
  if l.length < N - 1 then (true, l ++ [v]) else (false, l)

/-- Specification side: `pop` on a FIFO list returns `true`, writes the first element to
`out` and removes it iff the list is non-empty. -/
def pop (l : List T) (out : T) : Bool × T × List T :=
  match l with
  | [] => (false, out, [])
  | x :: xs => (true, x, xs)

/-- Specification side: apply calls one after another to the bounded FIFO list. -/
def run (N : Nat) (l : List T) : List (Op T) → List (Res T) × List T
  | [] => ([], l)
  | Op.push v :: ops =>
    let r := push N l v
    let rest := run N r.2 ops
    (Res.push r.1 :: rest.1, rest.2)
  | Op.pop out :: ops =>
    let r := pop l out
    let rest := run N r.2.2 ops
    (Res.pop r.1 r.2.1 :: rest.1, rest.2)

end BoundedFifo

/-! ## One producer and one consumer, interleaved access by access -/

/-- Where the producer is inside `push` (lines 20-33). -/
inductive PushPC (T : Type) where
  /-- Not inside a call. -/
  | idle
  /-- After lines 22-23: `t` and `n` are the locals. -/
  | loaded (v : T) (t n : Nat)
  /-- After line 25 with `n != head`: about to execute `buffer[t] = v`. -/
  | checked (v : T) (t n : Nat)
  /-- After line 30: about to execute `tail.store(n)`. -/
  | stored (v : T) (t n : Nat)
deriving DecidableEq, Repr

/-- Where the consumer is inside `pop` (lines 35-47). -/
inductive PopPC (T : Type) where
  /-- Not inside a call. -/
  | idle
  /-- After line 37: `h` is the local. -/
  | loaded (h : Nat)
  /-- After line 39 with `h != tail`: about to execute `out = buffer[h]`. -/
  | checked (h : Nat)
  /-- After line 44: `out` holds the slot, about to execute `head.store(...)`. -/
  | copied (h : Nat) (out : T)
deriving DecidableEq, Repr

/-- The shared queue, the position of each thread in its running call, and two history
logs: the values of the pushes that have returned `true` and the values handed out by the
pops that have returned `true`. -/
structure Sys (T : Type) (N : Nat) where
  q : SPSC_Queue T N
  prod : PushPC T
  cons : PopPC T
  accepted : List T
  delivered : List T
deriving DecidableEq, Repr

/-- One scheduling decision: the producer executes its next access (entering `push(v)` when
it is not inside a call), or the consumer executes its next access. -/
inductive Ev (T : Type) where
  | prod (v : T)
  | cons
deriving DecidableEq, Repr

namespace Sys

variable {T : Type} {N : Nat}

/-- Both threads outside any call on a freshly constructed queue. -/
def fresh (slots : List T) : Sys T N :=
  ⟨SPSC_Queue.fresh slots, PushPC.idle, PopPC.idle, [], []⟩

/-- The producer executes the next atomic access of `push`. -/
def stepPush (s : Sys T N) (v : T) : Option (Sys T N) :=
  match s.prod with
  | PushPC.idle =>
    -- auto t = tail.load(relaxed); auto n = (t + 1) & (N - 1);
    some { s with prod := PushPC.loaded v s.q.tail (nextIndex N s.q.tail) }
  | PushPC.loaded w t n =>
    -- if (n == head.load(acquire)) return false;
    if n = s.q.head then some { s with prod := PushPC.idle }
    else some { s with prod := PushPC.checked w t n }
  | PushPC.checked w t n =>
    -- buffer[t] = v;
    if t < s.q.buffer.length then
      some { s with q := { s.q with buffer := s.q.buffer.set t w }, prod := PushPC.stored w t n }
    else none
  | PushPC.stored w _ n =>
    -- tail.store(n, release); return true;
    some { s with q := { s.q with tail := n }, prod := PushPC.idle,
                  accepted := s.accepted ++ [w] }

/-- The consumer executes the next atomic access of `pop`. -/
def stepPop (s : Sys T N) : Option (Sys T N) :=
  match s.cons with
  | PopPC.idle =>
    -- auto h = head.load(relaxed);
    some { s with cons := PopPC.loaded s.q.head }
  | PopPC.loaded h =>
    -- if (h == tail.load(acquire)) return false;
    if h = s.q.tail then some { s with cons := PopPC.idle }
    else some { s with cons := PopPC.checked h }
  | PopPC.checked h =>
    -- out = buffer[h];
    match s.q.buffer[h]? with
    | some x => some { s with cons := PopPC.copied h x }
    | none => none
  | PopPC.copied h x =>
    -- head.store((h + 1) & (N - 1), release); return true;
    some { s with q := { s.q with head := nextIndex N h }, cons := PopPC.idle,
                  delivered := s.delivered ++ [x] }

/-- One scheduling decision. -/
def step (s : Sys T N) : Ev T → Option (Sys T N)
  | Ev.prod v => s.stepPush v
  | Ev.cons => s.stepPop

/-- Run a whole schedule. -/
def exec (s : Sys T N) : List (Ev T) → Option (Sys T N)
  | [] => some s
  | e :: es =>
    match s.step e with
    | none => none
    | some s1 => exec s1 es

/-- The slot a running push is writing: the producer is between its check and its
`tail.store`. -/
def writeSlot (s : Sys T N) : Option Nat :=
  match s.prod with
  | PushPC.checked _ t _ => some t
  | PushPC.stored _ t _ => some t
  | _ => none

/-- The slot a running pop is reading: the consumer is between its check and its
`head.store`. -/
def readSlot (s : Sys T N) : Option Nat :=
  match s.cons with
  | PopPC.checked h => some h
  | PopPC.copied h _ => some h
  | _ => none

end Sys

/-! ## Abstraction relation -/

/-- Abstraction relation between the queue and its history: `acc` lists every value
accepted so far and `H` counts the values delivered so far. The cursors are the two
counters modulo `N`, at most `N - 1` values are stored, and the stored values sit in the
slots between the cursors. -/
def SPSC_Queue.Rep {T : Type} {N : Nat} (q : SPSC_Queue T N) (acc : List T) (H : Nat) : Prop :=
  q.buffer.length = N ∧ H ≤ acc.length ∧ acc.length ≤ H + (N - 1) ∧
  q.head = H % N ∧ q.tail = acc.length % N ∧
  ∀ i, H ≤ i → i < acc.length → q.buffer[i % N]? = acc[i]?

/-! ## Invariant of the interleaved system -/

namespace Sys

variable {T : Type} {N : Nat}

/-- What the producer knows at each position inside `push`: its local `t` is the tail
cursor, `n` its successor; past the check there is room for one more value; past line 30
slot `t` holds `v`. -/
def ProdInv (s : Sys T N) : Prop :=
  match s.prod with
  | PushPC.idle => True
  | PushPC.loaded _ t n => t = s.q.tail ∧ n = nextIndex N t
  | PushPC.checked _ t n =>
    t = s.q.tail ∧ n = nextIndex N t ∧ s.accepted.length + 1 < s.delivered.length + N
  | PushPC.stored v t n =>
    t = s.q.tail ∧ n = nextIndex N t ∧ s.accepted.length + 1 < s.delivered.length + N ∧
      s.q.buffer[t]? = some v

/-- What the consumer knows at each position inside `pop`: its local `h` is the head
cursor; past the check some accepted value is undelivered; past line 44 `out` holds the
oldest undelivered value. -/
def ConsInv (s : Sys T N) : Prop :=
  match s.cons with
  | PopPC.idle => True
  | PopPC.loaded h => h = s.q.head
  | PopPC.checked h => h = s.q.head ∧ s.delivered.length < s.accepted.length
  | PopPC.copied h x =>
    h = s.q.head ∧ s.delivered.length < s.accepted.length ∧
      s.accepted[s.delivered.length]? = some x

/-- Invariant of every reachable state of the interleaved system. -/
def Inv (s : Sys T N) : Prop :=
  s.q.Rep s.accepted s.delivered.length ∧ s.delivered <+: s.accepted ∧ s.ProdInv ∧ s.ConsInv

end Sys

/-! ## The concurrent stress scenario -/

/-- The two threads of the stress scenario. -/
inductive Thread where
  | producer
  | consumer
deriving DecidableEq, Repr

/-- Modelled from the spec: the state of the concurrent stress scenario of section 8, whose
two driver loops are not part of `src/`. The producer loop variable `next` is the integer
being pushed; the consumer accumulates the popped values in `collected`. -/
structure Stress (N : Nat) where
  sys : Sys Nat N
  next : Nat
  collected : List Nat
deriving DecidableEq, Repr

namespace Stress

variable {N : Nat}

/-- Modelled from the spec: both driver loops at their start on a fresh queue. -/
def fresh (slots : List Nat) : Stress N := ⟨Sys.fresh slots, 0, []⟩

/-- Modelled from the spec: the chosen thread executes its next atomic access. The producer
calls `push(next)` while `next < P`, again after a `false` return, and increments `next`
after a `true` return: it pushes the integers `0, 1, .., P - 1`. The consumer calls
`pop(out)` while fewer than `M` values are collected, again after a `false` return, and
appends `out` after a `true` return. A thread whose loop has ended does nothing. -/
def step (P M : Nat) (s : Stress N) : Thread → Option (Stress N)
  | Thread.producer =>
    match s.sys.prod with
    | PushPC.idle =>
      if s.next < P then
        match s.sys.stepPush s.next with
        | some y => some { s with sys := y }
        | none => none
      else some s
    | PushPC.stored _ _ _ =>
      match s.sys.stepPush s.next with
      | some y => some { s with sys := y, next := s.next + 1 }
      | none => none
    | _ =>
      match s.sys.stepPush s.next with
      | some y => some { s with sys := y }
      | none => none
  | Thread.consumer =>
    match s.sys.cons with
    | PopPC.idle =>
      if s.collected.length < M then
        match s.sys.stepPop with
        | some y => some { s with sys := y }
        | none => none
      else some s
    | PopPC.copied _ x =>
      match s.sys.stepPop with
      | some y => some { s with sys := y, collected := s.collected ++ [x] }
      | none => none
    | _ =>
      match s.sys.stepPop with
      | some y => some { s with sys := y }
      | none => none

/-- Modelled from the spec: run the stress scenario under a whole schedule. -/
def exec (P M : Nat) (s : Stress N) : List Thread → Option (Stress N)
  | [] => some s
  | t :: ts =>
    match s.step P M t with
    | none => none
    | some s1 => exec P M s1 ts

/-- The value carried by a running push, if any. -/
def pushing (s : Stress N) : Option Nat :=
  match s.sys.prod with
  | PushPC.idle => none
  | PushPC.loaded v _ _ => some v
  | PushPC.checked v _ _ => some v
  | PushPC.stored v _ _ => some v

/-- Invariant of the stress scenario: the loop variables agree with the history logs, the
accepted values are `0, 1, ..`, a running push carries `next`, and neither loop overruns
its bound. -/
def Inv (P M : Nat) (s : Stress N) : Prop :=
  s.sys.Inv ∧ s.next = s.sys.accepted.length ∧ s.collected = s.sys.delivered ∧
  s.sys.accepted = List.range s.sys.accepted.length ∧ s.next ≤ P ∧
  (∀ v, s.pushing = some v → v = s.next ∧ s.next < P) ∧
  s.collected.length ≤ M ∧ (s.sys.cons ≠ PopPC.idle → s.collected.length < M)

/-- Accesses the completing schedule still needs before the next value is collected: the
consumer's remaining accesses when a value is stored, otherwise the producer's remaining
accesses followed by a whole `pop`. -/
def cost (s : Stress N) : Nat :=
  if s.sys.delivered.length < s.sys.accepted.length then
    match s.sys.cons with
    | PopPC.idle => 4
    | PopPC.loaded _ => 3
    | PopPC.checked _ => 2
    | PopPC.copied _ _ => 1
  else
    (match s.sys.cons with
      | PopPC.idle => 0
      | _ => 1) +
    (match s.sys.prod with
      | PushPC.idle => 4
      | PushPC.loaded _ _ _ => 3
      | PushPC.checked _ _ _ => 2
      | PushPC.stored _ _ _ => 1) + 4

/-- Progress measure of the stress scenario: it decreases with every access of the
completing schedule until `M` values are collected. -/
def rank (M : Nat) (s : Stress N) : Nat := 16 * (M - s.collected.length) + s.cost

/-- The completing schedule: the consumer runs whenever a value is stored or its `pop` is
under way, otherwise the producer runs. -/
def pick (s : Stress N) : Thread :=
  if s.sys.delivered.length < s.sys.accepted.length then Thread.consumer
  else
    match s.sys.cons with
    | PopPC.idle => Thread.producer
    | _ => Thread.consumer

end Stress

/-! ## Occupancy -/

/-- The number of stored elements after the calls `ops` returned `rs`: successful pushes
minus successful pops. -/
def storedCount {T : Type} (ops : List (Op T)) (rs : List (Res T)) : Nat :=
  (acceptedValues ops rs).length - (deliveredValues rs).length

/-- What a call returns when it declines: `push` returns `false`; `pop` returns `false` and
leaves `out` as it was. -/
def declined {T : Type} : Op T → Res T
  | Op.push _ => Res.push false
  | Op.pop out => Res.pop false out

/-! ## Arithmetic of the bit mask -/

theorem land_pred_double (m : Nat) (hm : 0 < m) :
    (2 * m) &&& (2 * m - 1) = 2 * (m &&& (m - 1)) := by
  have h1 : 2 * m = Nat.bit false m := by simp [Nat.bit_val]
  have h2 : 2 * m - 1 = Nat.bit true (m - 1) := by simp [Nat.bit_val]; omega
  rw [h2]
  nth_rewrite 1 [h1]
  rw [Nat.land_bit]
  simp [Nat.bit_val]

theorem land_pred_odd (m : Nat) :
    (2 * m + 1) &&& (2 * m + 1 - 1) = 2 * m := by
  have h1 : 2 * m + 1 = Nat.bit true m := by simp [Nat.bit_val]
  have h2 : 2 * m + 1 - 1 = Nat.bit false m := by simp [Nat.bit_val]
  rw [h2, h1, Nat.land_bit]
  simp [Nat.bit_val]

theorem land_pred_eq_zero_iff (n : Nat) (hn : 0 < n) :
    n &&& (n - 1) = 0 ↔ ∃ k, n = 2 ^ k := by
  constructor
  · induction n using Nat.strong_induction_on with
    | _ n ih =>
      intro h
      rcases Nat.even_or_odd' n with ⟨m, rfl | rfl⟩
      · have hm : 0 < m := by omega
        rw [land_pred_double m hm] at h
        have h0 : m &&& (m - 1) = 0 := by omega
        obtain ⟨k, hk⟩ := ih m (by omega) hm h0
        exact ⟨k + 1, by rw [hk, pow_succ]; ring⟩
      · rw [land_pred_odd] at h
        have : m = 0 := by omega
        subst this
        exact ⟨0, rfl⟩
  · rintro ⟨k, rfl⟩
    rw [Nat.and_pow_two_sub_one_eq_mod]
    exact Nat.mod_self _

theorem sizeSub_one (N : Nat) (h0 : 0 < N) (hN : N < 2 ^ 64) : sizeSub N 1 = N - 1 := by
  unfold sizeSub SIZE_MOD
  omega

theorem sizeAdd_one (t : Nat) (ht : t + 1 < 2 ^ 64) : sizeAdd t 1 = t + 1 := by
  unfold sizeAdd SIZE_MOD
  omega

theorem capacityCheck_iff (N : Nat) (h0 : 0 < N) (hN : N < 2 ^ 64) :
    capacityCheck N = true ↔ ∃ k, N = 2 ^ k := by
  unfold capacityCheck
  rw [sizeSub_one N h0 hN, beq_iff_eq]
  exact land_pred_eq_zero_iff N h0

theorem nextIndex_eq_mod (k t : Nat) (hk : 2 ^ k < 2 ^ 64) (ht : t < 2 ^ k) :
    nextIndex (2 ^ k) t = (t + 1) % 2 ^ k := by
  unfold nextIndex
  rw [sizeSub_one _ (Nat.pos_pow_of_pos k (by decide)) hk, sizeAdd_one t (by omega),
    Nat.and_pow_two_sub_one_eq_mod]

/-! ## Capacity check -/

/-- C7. For every capacity `N >= 1` of type `std::size_t`, the condition of the
`static_assert` holds iff `N` is a power of two; capacities 3, 5, 6, 7 and 12 are
rejected. -/
theorem capacityCheck_rejects_non_power_of_two :
    (∀ N : Nat, 1 ≤ N → N < 2 ^ 64 → (capacityCheck N = true ↔ ∃ k, N = 2 ^ k)) ∧
    capacityCheck 3 = false ∧ capacityCheck 5 = false ∧ capacityCheck 6 = false ∧
    capacityCheck 7 = false ∧ capacityCheck 12 = false := by
  refine ⟨fun N h1 hN => capacityCheck_iff N h1 hN, ?_, ?_, ?_, ?_, ?_⟩ <;> decide

theorem capacityCheck_rejects_non_power_of_two_witness :
    (capacityCheck 8 = true ↔ ∃ k, 8 = 2 ^ k) ∧ capacityCheck 8 = true := by
  exact ⟨capacityCheck_rejects_non_power_of_two.1 8 (by decide) (by decide), by decide⟩

/-! ## Cursors modulo the capacity -/

theorem nextIndex_mod_of_pow2 {N : Nat} (hp : ∃ k, N = 2 ^ k) (h64 : N < 2 ^ 64)
    (t : Nat) (ht : t < N) : nextIndex N t = (t + 1) % N := by
  obtain ⟨k, rfl⟩ := hp
  exact nextIndex_eq_mod k t h64 ht

theorem pow2_pos {N : Nat} (hp : ∃ k, N = 2 ^ k) : 0 < N := by
  obtain ⟨k, rfl⟩ := hp
  exact Nat.pos_pow_of_pos k (by decide)

theorem mod_ne_of_lt_of_sub_lt {N a b : Nat} (hab : a < b) (hlt : b - a < N) :
    a % N ≠ b % N := by
  intro h
  have h1 : (b - a) % N = 0 := Nat.sub_mod_eq_zero_of_mod_eq h.symm
  have h2 : N ≤ b - a := Nat.le_of_dvd (by omega) (Nat.dvd_of_mod_eq_zero h1)
  omega

theorem succ_mod_eq_iff {N H L : Nat} (h0 : 0 < N) (h1 : H ≤ L) (h2 : L ≤ H + (N - 1)) :
    (L + 1) % N = H % N ↔ L + 1 = H + N := by
  constructor
  · intro h
    by_contra hne
    exact mod_ne_of_lt_of_sub_lt (N := N) (a := H) (b := L + 1) (by omega) (by omega) h.symm
  · intro h
    rw [h, Nat.add_mod_right]

theorem mod_eq_iff_of_close {N H L : Nat} (h0 : 0 < N) (h1 : H ≤ L) (h2 : L ≤ H + (N - 1)) :
    H % N = L % N ↔ H = L := by
  constructor
  · intro h
    by_contra hne
    exact mod_ne_of_lt_of_sub_lt (N := N) (a := H) (b := L) (by omega) (by omega) h
  · intro h
    rw [h]

namespace SPSC_Queue

variable {T : Type} {N : Nat}

theorem Rep.fresh (slots : List T) (hlen : slots.length = N) :
    (SPSC_Queue.fresh slots : SPSC_Queue T N).Rep [] 0 := by
  refine ⟨hlen, le_refl _, by simp, by simp [SPSC_Queue.fresh], by simp [SPSC_Queue.fresh], ?_⟩
  intro i _ hi
  simp at hi

theorem Rep.wf {q : SPSC_Queue T N} {acc : List T} {H : Nat} (h : q.Rep acc H)
    (h0 : 0 < N) : q.WF := by
  obtain ⟨hl, _, _, hh, ht, _⟩ := h
  exact ⟨by rw [hh]; exact Nat.mod_lt _ h0, by rw [ht]; exact Nat.mod_lt _ h0, hl⟩

theorem Rep.next_tail {q : SPSC_Queue T N} {acc : List T} {H : Nat} (h : q.Rep acc H)
    (hp : ∃ k, N = 2 ^ k) (h64 : N < 2 ^ 64) :
    nextIndex N q.tail = (acc.length + 1) % N := by
  have h0 := pow2_pos hp
  rw [nextIndex_mod_of_pow2 hp h64 _ (h.wf h0).2.1, h.2.2.2.2.1, Nat.mod_add_mod]

theorem Rep.next_head {q : SPSC_Queue T N} {acc : List T} {H : Nat} (h : q.Rep acc H)
    (hp : ∃ k, N = 2 ^ k) (h64 : N < 2 ^ 64) :
    nextIndex N q.head = (H + 1) % N := by
  have h0 := pow2_pos hp
  rw [nextIndex_mod_of_pow2 hp h64 _ (h.wf h0).1, h.2.2.2.1, Nat.mod_add_mod]

theorem Rep.full_iff {q : SPSC_Queue T N} {acc : List T} {H : Nat} (h : q.Rep acc H)
    (hp : ∃ k, N = 2 ^ k) (h64 : N < 2 ^ 64) :
    nextIndex N q.tail = q.head ↔ acc.length + 1 = H + N := by
  rw [h.next_tail hp h64, h.2.2.2.1]
  exact succ_mod_eq_iff (pow2_pos hp) h.2.1 h.2.2.1

theorem Rep.empty_iff {q : SPSC_Queue T N} {acc : List T} {H : Nat} (h : q.Rep acc H)
    (h0 : 0 < N) : q.head = q.tail ↔ H = acc.length := by
  rw [h.2.2.2.1, h.2.2.2.2.1]
  exact mod_eq_iff_of_close h0 h.2.1 h.2.2.1

theorem Rep.write {q : SPSC_Queue T N} {acc : List T} {H : Nat} (h : q.Rep acc H)
    (h0 : 0 < N) (v : T) :
    ({ q with buffer := q.buffer.set q.tail v } : SPSC_Queue T N).Rep acc H ∧
    (q.buffer.set q.tail v)[q.tail]? = some v := by
  obtain ⟨hl, h1, h2, hh, ht, hb⟩ := h
  have htl : q.tail < q.buffer.length := by rw [hl, ht]; exact Nat.mod_lt _ h0
  refine ⟨⟨by simp [hl], h1, h2, hh, ht, ?_⟩, List.getElem?_set_self htl⟩
  intro i hi1 hi2
  have hne : q.tail ≠ i % N := by
    rw [ht]
    exact (mod_ne_of_lt_of_sub_lt hi2 (by omega)).symm
  show (q.buffer.set q.tail v)[i % N]? = acc[i]?
  rw [List.getElem?_set_ne hne]
  exact hb i hi1 hi2

theorem Rep.publish {q : SPSC_Queue T N} {acc : List T} {H : Nat} (h : q.Rep acc H)
    (v : T) (hv : q.buffer[q.tail]? = some v) (hroom : acc.length + 1 < H + N) :
    ({ q with tail := (acc.length + 1) % N } : SPSC_Queue T N).Rep (acc ++ [v]) H := by
  obtain ⟨hl, h1, h2, hh, ht, hb⟩ := h
  refine ⟨hl, by simp; omega, by simp; omega, hh, by simp, ?_⟩
  intro i hi1 hi2
  show q.buffer[i % N]? = (acc ++ [v])[i]?
  simp only [List.length_append, List.length_singleton] at hi2
  by_cases hi : i < acc.length
  · rw [List.getElem?_append_left hi]
    exact hb i hi1 hi
  · have : i = acc.length := by omega
    subst this
    rw [List.getElem?_concat_length, ← ht]
    exact hv

theorem Rep.read {q : SPSC_Queue T N} {acc : List T} {H : Nat} (h : q.Rep acc H)
    (hne : H < acc.length) : q.buffer[q.head]? = acc[H]? := by
  rw [h.2.2.2.1]
  exact h.2.2.2.2.2 H (le_refl _) hne

theorem Rep.consume {q : SPSC_Queue T N} {acc : List T} {H : Nat} (h : q.Rep acc H)
    (hne : H < acc.length) :
    ({ q with head := (H + 1) % N } : SPSC_Queue T N).Rep acc (H + 1) := by
  obtain ⟨hl, h1, h2, hh, ht, hb⟩ := h
  refine ⟨hl, hne, by omega, rfl, ht, ?_⟩
  intro i hi1 hi2
  exact hb i (by omega) hi2

theorem push_full (q : SPSC_Queue T N) (v : T) (h : nextIndex N q.tail = q.head) :
    q.push v = some (false, q) := by
  simp [push, h]

theorem pop_empty (q : SPSC_Queue T N) (out : T) (h : q.head = q.tail) :
    q.pop out = some (false, out, q) := by
  simp [pop, h]

theorem Rep.push_ok {q : SPSC_Queue T N} {acc : List T} {H : Nat} (h : q.Rep acc H)
    (hp : ∃ k, N = 2 ^ k) (h64 : N < 2 ^ 64) (v : T) (hroom : acc.length + 1 < H + N) :
    ∃ q1 : SPSC_Queue T N, q.push v = some (true, q1) ∧ q1.Rep (acc ++ [v]) H := by
  have h0 := pow2_pos hp
  have hnf : ¬ nextIndex N q.tail = q.head := by
    rw [h.full_iff hp h64]; omega
  have htl : q.tail < q.buffer.length := by
    rw [h.1]; exact (h.wf h0).2.1
  obtain ⟨hw, hv⟩ := h.write h0 v
  have hpub := hw.publish v hv hroom
  refine ⟨_, by simp only [push, hnf, htl, if_true, if_false]; rfl, ?_⟩
  rw [h.next_tail hp h64]
  exact hpub

theorem Rep.push_when_full {q : SPSC_Queue T N} {acc : List T} {H : Nat} (h : q.Rep acc H)
    (hp : ∃ k, N = 2 ^ k) (h64 : N < 2 ^ 64) (v : T) (hfull : acc.length + 1 = H + N) :
    q.push v = some (false, q) :=
  SPSC_Queue.push_full q v ((h.full_iff hp h64).2 hfull)

theorem Rep.pop_ok {q : SPSC_Queue T N} {acc : List T} {H : Nat} (h : q.Rep acc H)
    (hp : ∃ k, N = 2 ^ k) (h64 : N < 2 ^ 64) (out : T) (hne : H < acc.length) :
    ∃ q1 : SPSC_Queue T N, q.pop out = some (true, acc[H], q1) ∧ q1.Rep acc (H + 1) := by
  have h0 := pow2_pos hp
  have hnotempty : ¬ q.head = q.tail := by
    rw [h.empty_iff h0]; omega
  have hr : q.buffer[q.head]? = some acc[H] := by
    rw [h.read hne, List.getElem?_eq_getElem hne]
  refine ⟨_, by simp only [pop, hnotempty, if_false, hr]; rfl, ?_⟩
  rw [h.next_head hp h64]
  exact h.consume hne

theorem Rep.pop_when_empty {q : SPSC_Queue T N} {acc : List T} {H : Nat} (h : q.Rep acc H)
    (h0 : 0 < N) (out : T) (he : H = acc.length) :
    q.pop out = some (false, out, q) :=
  SPSC_Queue.pop_empty q out ((h.empty_iff h0).2 he)

/-- The queue started in a state that represents the history `acc`, `H` returns, call by
call, what the bounded FIFO list holding the undelivered values returns. -/
theorem Rep.run_refines (hp : ∃ k, N = 2 ^ k) (h64 : N < 2 ^ 64) (ops : List (Op T)) :
    ∀ (q : SPSC_Queue T N) (acc : List T) (H : Nat), q.Rep acc H →
      ∃ q1 : SPSC_Queue T N,
        q.run ops = some ((BoundedFifo.run N (acc.drop H) ops).1, q1) := by
  have h0 := pow2_pos hp
  induction ops with
  | nil => intro q acc H _; exact ⟨q, rfl⟩
  | cons op ops ih =>
    intro q acc H h
    cases op with
    | push v =>
      by_cases hroom : acc.length + 1 < H + N
      · obtain ⟨q1, hq1, hrep⟩ := h.push_ok hp h64 v hroom
        obtain ⟨q2, hq2⟩ := ih q1 _ _ hrep
        have hlen : (acc.drop H).length < N - 1 := by
          have := h.2.1
          rw [List.length_drop]; omega
        refine ⟨q2, ?_⟩
        simp only [run, hq1, hq2, BoundedFifo.run, BoundedFifo.push, hlen, if_true]
        rw [List.drop_append_of_le_length h.2.1]
      · have hfull : acc.length + 1 = H + N := by have := h.2.2.1; omega
        obtain ⟨q2, hq2⟩ := ih q _ _ h
        have hlen : ¬ (acc.drop H).length < N - 1 := by rw [List.length_drop]; omega
        refine ⟨q2, ?_⟩
        simp only [run, h.push_when_full hp h64 v hfull, hq2, BoundedFifo.run, BoundedFifo.push,
          hlen, if_false]
    | pop out =>
      by_cases hne : H < acc.length
      · obtain ⟨q1, hq1, hrep⟩ := h.pop_ok hp h64 out hne
        obtain ⟨q2, hq2⟩ := ih q1 _ _ hrep
        refine ⟨q2, ?_⟩
        simp only [run, hq1, hq2, BoundedFifo.run, List.drop_eq_getElem_cons hne,
          BoundedFifo.pop]
      · have he : H = acc.length := by have := h.2.1; omega
        obtain ⟨q2, hq2⟩ := ih q _ _ h
        have hnil : acc.drop H = [] := by simp [he]
        refine ⟨q2, ?_⟩
        simp only [run, h.pop_when_empty h0 out he, hq2, BoundedFifo.run, hnil, BoundedFifo.pop]

end SPSC_Queue

/-- On the bounded FIFO list, the delivered values followed by the stored values are the
initially stored values followed by the accepted values. -/
theorem BoundedFifo.run_history {T : Type} (N : Nat) (ops : List (Op T)) :
    ∀ l : List T,
      deliveredValues (BoundedFifo.run N l ops).1 ++ (BoundedFifo.run N l ops).2 =
        l ++ acceptedValues ops (BoundedFifo.run N l ops).1 := by
  induction ops with
  | nil => intro l; simp [BoundedFifo.run, deliveredValues, acceptedValues]
  | cons op ops ih =>
    intro l
    cases op with
    | push v =>
      by_cases hlen : l.length < N - 1
      · have := ih (l ++ [v])
        simp only [BoundedFifo.run, BoundedFifo.push, hlen, if_true, deliveredValues,
          acceptedValues] at this ⊢
        simpa using this
      · have := ih l
        simp only [BoundedFifo.run, BoundedFifo.push, hlen, if_false, deliveredValues,
          acceptedValues] at this ⊢
        simpa using this
    | pop out =>
      cases l with
      | nil =>
        have := ih []
        simp only [BoundedFifo.run, BoundedFifo.pop, deliveredValues, acceptedValues] at this ⊢
        simpa using this
      | cons x xs =>
        have := ih xs
        simp only [BoundedFifo.run, BoundedFifo.pop, deliveredValues, acceptedValues] at this ⊢
        simpa using this

/-! ## The abstract bounded FIFO on runs of pushes and runs of pops -/

theorem BoundedFifo.run_append {T : Type} (N : Nat) (ops1 ops2 : List (Op T)) :
    ∀ l : List T,
      BoundedFifo.run N l (ops1 ++ ops2) =
        ((BoundedFifo.run N l ops1).1 ++
            (BoundedFifo.run N (BoundedFifo.run N l ops1).2 ops2).1,
          (BoundedFifo.run N (BoundedFifo.run N l ops1).2 ops2).2) := by
  induction ops1 with
  | nil => intro l; simp [BoundedFifo.run]
  | cons op ops ih =>
    intro l
    cases op with
    | push v =>
      rw [List.cons_append]
      simp only [BoundedFifo.run, ih, List.cons_append]
    | pop out =>
      rw [List.cons_append]
      simp only [BoundedFifo.run, ih, List.cons_append]

theorem BoundedFifo.run_pushes_flags {T : Type} (N : Nat) (vs : List T) :
    ∀ l : List T,
      (BoundedFifo.run N l (vs.map Op.push)).1 =
        (List.range vs.length).map (fun i => Res.push (decide (l.length + i < N - 1))) := by
  induction vs with
  | nil => intro l; simp [BoundedFifo.run]
  | cons v vs ih =>
    intro l
    simp only [List.length_cons, List.range_succ_eq_map, List.map_cons, List.map_map]
    by_cases hlen : l.length < N - 1
    · simp only [List.map_cons, BoundedFifo.run, BoundedFifo.push, hlen, if_true, ih,
        List.length_append, List.length_singleton, Nat.add_zero, decide_True]
      congr 1
      apply List.map_congr_left
      intro i _
      simp only [Function.comp, Nat.succ_eq_add_one]
      congr 2
      apply propext
      constructor <;> intro h <;> omega
    · simp only [List.map_cons, BoundedFifo.run, BoundedFifo.push, hlen, if_false, ih,
        Nat.add_zero, decide_False]
      congr 1
      apply List.map_congr_left
      intro i _
      simp only [Function.comp, Nat.succ_eq_add_one]
      congr 2
      apply propext
      constructor <;> intro h <;> omega

theorem BoundedFifo.run_pushes_accepted {T : Type} (N : Nat) (vs : List T) :
    ∀ l : List T,
      acceptedValues (vs.map Op.push) (BoundedFifo.run N l (vs.map Op.push)).1 =
        vs.take (N - 1 - l.length) := by
  induction vs with
  | nil => intro l; simp [BoundedFifo.run, acceptedValues]
  | cons v vs ih =>
    intro l
    by_cases hlen : l.length < N - 1
    · have hk : N - 1 - l.length = (N - 1 - (l.length + 1)) + 1 := by omega
      simp only [List.map_cons, BoundedFifo.run, BoundedFifo.push, hlen, if_true,
        acceptedValues, ih, List.length_append, List.length_singleton]
      rw [hk, List.take_succ_cons]
    · have hk : N - 1 - l.length = 0 := by omega
      simp only [List.map_cons, BoundedFifo.run, BoundedFifo.push, hlen, if_false,
        acceptedValues, ih, hk, List.take_zero]

theorem BoundedFifo.run_pushes_room {T : Type} (N : Nat) (vs : List T) :
    ∀ l : List T, l.length + vs.length ≤ N - 1 →
      BoundedFifo.run N l (vs.map Op.push) = (vs.map (fun _ => Res.push true), l ++ vs) := by
  induction vs with
  | nil => intro l _; simp [BoundedFifo.run]
  | cons v vs ih =>
    intro l hl
    simp only [List.length_cons] at hl
    have hlen : l.length < N - 1 := by omega
    simp only [List.map_cons, BoundedFifo.run, BoundedFifo.push, hlen, if_true]
    rw [ih (l ++ [v]) (by simp; omega)]
    simp

theorem BoundedFifo.run_pops {T : Type} (N : Nat) (rest : List T) (l : List T) :
    ∀ outs : List T, outs.length = l.length →
      BoundedFifo.run N (l ++ rest) (outs.map Op.pop) =
        (l.map (fun v => Res.pop true v), rest) := by
  induction l with
  | nil =>
    intro outs ho
    have : outs = [] := List.length_eq_zero.mp ho
    subst this
    simp [BoundedFifo.run]
  | cons x xs ih =>
    intro outs ho
    cases outs with
    | nil => simp at ho
    | cons o os =>
      simp only [List.length_cons, Nat.add_right_cancel_iff] at ho
      simp only [List.map_cons, List.cons_append, BoundedFifo.run, BoundedFifo.pop, ih os ho]

/-! ## Sequential contract -/

/-- C1. For every power-of-two capacity `N >= 2` and every finite sequence of `push` and
`pop` calls applied one after another to a freshly constructed queue, every call returns
what the abstract FIFO list bounded to `N - 1` elements returns; hence the values delivered
by successful pops are a prefix of the values accepted by successful pushes. With `N = 4`,
push 3, pop 2, push 2, pop 3 delivers the five pushed values in order although the cursors
wrap past the end of the array. -/
theorem run_refines_bounded_fifo {T : Type} :
    (∀ (N : Nat), 2 ≤ N → N < 2 ^ 64 → (∃ k, N = 2 ^ k) →
      ∀ (slots : List T), slots.length = N → ∀ ops : List (Op T),
        ∃ (rs : List (Res T)) (q1 : SPSC_Queue T N),
          (SPSC_Queue.fresh slots : SPSC_Queue T N).run ops = some (rs, q1) ∧
          rs = (BoundedFifo.run N [] ops).1 ∧
          deliveredValues rs <+: acceptedValues ops rs) ∧
    (∀ (a b c d e o : T) (slots : List T), slots.length = 4 →
      ∃ q1 : SPSC_Queue T 4,
        (SPSC_Queue.fresh slots : SPSC_Queue T 4).run
            [Op.push a, Op.push b, Op.push c, Op.pop o, Op.pop o, Op.push d, Op.push e,
              Op.pop o, Op.pop o, Op.pop o] =
          some ([Res.push true, Res.push true, Res.push true, Res.pop true a, Res.pop true b,
              Res.push true, Res.push true, Res.pop true c, Res.pop true d, Res.pop true e],
            q1) ∧
        q1.tail = 1 ∧ q1.head = 1) := by
  constructor
  · intro N _ h64 hp slots hlen ops
    obtain ⟨q1, hq1⟩ :=
      SPSC_Queue.Rep.run_refines hp h64 ops _ _ _ (SPSC_Queue.Rep.fresh slots hlen)
    refine ⟨_, q1, hq1, rfl, ?_⟩
    have hh := BoundedFifo.run_history N ops ([] : List T)
    simp only [List.drop_nil, List.nil_append] at hh ⊢
    exact ⟨_, hh⟩
  · intro a b c d e o slots hlen
    match slots, hlen with
    | [s0, s1, s2, s3], _ =>
      refine ⟨⟨1, 1, [e, b, c, d]⟩, ?_, rfl, rfl⟩
      have hn : ∀ t, t < 4 → nextIndex 4 t = (t + 1) % 4 :=
        nextIndex_mod_of_pow2 ⟨2, rfl⟩ (by decide)
      simp [SPSC_Queue.run, SPSC_Queue.push, SPSC_Queue.pop, SPSC_Queue.fresh, hn]

theorem run_refines_bounded_fifo_witness :
    (2 ≤ 4 ∧ 4 < 2 ^ 64 ∧ (∃ k, 4 = 2 ^ k) ∧ [0, 0, 0, 0].length = 4) ∧
    ∃ (rs : List (Res Nat)) (q1 : SPSC_Queue Nat 4),
      (SPSC_Queue.fresh [0, 0, 0, 0] : SPSC_Queue Nat 4).run
          [Op.push 7, Op.push 8, Op.push 9, Op.push 10, Op.pop 0, Op.pop 0] = some (rs, q1) ∧
      rs = (BoundedFifo.run 4 [] [Op.push 7, Op.push 8, Op.push 9, Op.push 10, Op.pop 0,
          Op.pop 0]).1 ∧
      deliveredValues rs <+:
        acceptedValues [Op.push 7, Op.push 8, Op.push 9, Op.push 10, Op.pop 0, Op.pop 0] rs :=
  ⟨⟨by decide, by decide, ⟨2, rfl⟩, rfl⟩,
    run_refines_bounded_fifo.1 4 (by decide) (by decide) ⟨2, rfl⟩ [0, 0, 0, 0] rfl _⟩

/-- C2. For every power-of-two capacity `N >= 2` and all values `v1 .. vm` pushed in a row
on a freshly constructed queue, the `i`-th push (counted from 1) returns `true` iff
`i <= N - 1`: the accepted values are exactly the first `N - 1`. -/
theorem consecutive_pushes_capacity {T : Type} (N : Nat) (_hN : 2 ≤ N) (h64 : N < 2 ^ 64)
    (hp : ∃ k, N = 2 ^ k) (slots : List T) (hlen : slots.length = N) (vs : List T) :
    ∃ (rs : List (Res T)) (q1 : SPSC_Queue T N),
      (SPSC_Queue.fresh slots : SPSC_Queue T N).run (vs.map Op.push) = some (rs, q1) ∧
      rs = (List.range vs.length).map (fun i => Res.push (decide (i + 1 ≤ N - 1))) ∧
      acceptedValues (vs.map Op.push) rs = vs.take (N - 1) := by
  obtain ⟨q1, hq1⟩ :=
    SPSC_Queue.Rep.run_refines hp h64 (vs.map Op.push) _ _ _ (SPSC_Queue.Rep.fresh slots hlen)
  refine ⟨_, q1, hq1, ?_, ?_⟩
  · rw [List.drop_nil, BoundedFifo.run_pushes_flags]
    apply List.map_congr_left
    intro i _
    simp only [List.length_nil, Nat.zero_add]
    congr 2
  · rw [List.drop_nil, BoundedFifo.run_pushes_accepted]
    simp

theorem consecutive_pushes_capacity_witness :
    (2 ≤ 4 ∧ 4 < 2 ^ 64 ∧ (∃ k, 4 = 2 ^ k) ∧ [0, 0, 0, 0].length = 4) ∧
    ∃ (rs : List (Res Nat)) (q1 : SPSC_Queue Nat 4),
      (SPSC_Queue.fresh [0, 0, 0, 0] : SPSC_Queue Nat 4).run
          ([5, 6, 7, 8, 9].map Op.push) = some (rs, q1) ∧
      rs = (List.range [5, 6, 7, 8, 9].length).map
          (fun i => Res.push (decide (i + 1 ≤ 4 - 1))) ∧
      acceptedValues ([5, 6, 7, 8, 9].map Op.push) rs = [5, 6, 7, 8, 9].take (4 - 1) :=
  ⟨⟨by decide, by decide, ⟨2, rfl⟩, rfl⟩,
    consecutive_pushes_capacity 4 (by decide) (by decide) ⟨2, rfl⟩ [0, 0, 0, 0] rfl
      [5, 6, 7, 8, 9]⟩

/-- C3. For every power-of-two capacity `N >= 2`, every empty queue (`head == tail`, the
cursors inside the `N`-slot array) and values `v1 .. vk` with `k <= N - 1`: the `k` pushes
all return `true`, the next `k` pops all return `true` and write `v1, .., vk` to `out` in
that order, and one more pop returns `false` leaving `out` as it was. -/
theorem fifo_order_from_empty {T : Type} (N : Nat) (_hN : 2 ≤ N) (h64 : N < 2 ^ 64)
    (hp : ∃ k, N = 2 ^ k) (q : SPSC_Queue T N) (hwf : q.WF) (hempty : q.head = q.tail)
    (vs : List T) (hk : vs.length ≤ N - 1) (outs : List T) (houts : outs.length = vs.length)
    (o : T) :
    ∃ q1 : SPSC_Queue T N,
      q.run (vs.map Op.push ++ (outs.map Op.pop ++ [Op.pop o])) =
        some (vs.map (fun _ => Res.push true) ++
          (vs.map (fun v => Res.pop true v) ++ [Res.pop false o]), q1) := by
  have hrep : q.Rep (q.buffer.take q.head) q.head := by
    obtain ⟨hh, ht, hl⟩ := hwf
    have hlen : (q.buffer.take q.head).length = q.head := by
      rw [List.length_take]; omega
    refine ⟨hl, by omega, by omega, (Nat.mod_eq_of_lt hh).symm, ?_, ?_⟩
    · rw [hlen, Nat.mod_eq_of_lt hh]; exact hempty.symm
    · intro i h1 h2; omega
  obtain ⟨q1, hq1⟩ := SPSC_Queue.Rep.run_refines hp h64
    (vs.map Op.push ++ (outs.map Op.pop ++ [Op.pop o])) q _ _ hrep
  refine ⟨q1, ?_⟩
  rw [hq1]
  have hnil : List.drop q.head (List.take q.head q.buffer) = [] := by
    rw [List.drop_eq_nil_iff]
    exact List.length_take_le _ _
  have h3 := BoundedFifo.run_pops N ([] : List T) vs outs houts
  rw [List.append_nil] at h3
  rw [hnil, BoundedFifo.run_append, BoundedFifo.run_pushes_room N vs [] (by simpa using hk),
    BoundedFifo.run_append]
  simp only [List.nil_append, h3, BoundedFifo.run, BoundedFifo.pop]

theorem fifo_order_from_empty_witness :
    (2 ≤ 4 ∧ 4 < 2 ^ 64 ∧ (∃ k, 4 = 2 ^ k) ∧
      (⟨3, 3, [0, 0, 0, 0]⟩ : SPSC_Queue Nat 4).WF ∧ [5, 6, 7].length ≤ 4 - 1) ∧
    ∃ q1 : SPSC_Queue Nat 4,
      (⟨3, 3, [0, 0, 0, 0]⟩ : SPSC_Queue Nat 4).run
          ([5, 6, 7].map Op.push ++ ([1, 2, 3].map Op.pop ++ [Op.pop 4])) =
        some ([5, 6, 7].map (fun _ => Res.push true) ++
          ([5, 6, 7].map (fun v => Res.pop true v) ++ [Res.pop false 4]), q1) :=
  ⟨⟨by decide, by decide, ⟨2, rfl⟩, ⟨by decide, by decide, rfl⟩, by decide⟩,
    fifo_order_from_empty 4 (by decide) (by decide) ⟨2, rfl⟩ ⟨3, 3, [0, 0, 0, 0]⟩
      ⟨by decide, by decide, rfl⟩ rfl [5, 6, 7] (by decide) [1, 2, 3] rfl 4⟩

/-- C4. For every capacity `N` accepted by the capacity check and every initial value of
`out`, the first `pop(out)` on a freshly constructed queue returns `false` (and changes
neither `out` nor the queue). -/
theorem first_pop_fails {T : Type} (N : Nat) (_hN : N < 2 ^ 64)
    (_hcheck : capacityCheck N = true) (slots : List T) (_hlen : slots.length = N) (out : T) :
    (SPSC_Queue.fresh slots : SPSC_Queue T N).pop out =
      some (false, out, SPSC_Queue.fresh slots) := by
  simp [SPSC_Queue.pop, SPSC_Queue.fresh]

theorem first_pop_fails_witness :
    (8 < 2 ^ 64 ∧ capacityCheck 8 = true ∧ [0, 0, 0, 0, 0, 0, 0, 0].length = 8) ∧
    (SPSC_Queue.fresh [0, 0, 0, 0, 0, 0, 0, 0] : SPSC_Queue Nat 8).pop 5 =
      some (false, 5, SPSC_Queue.fresh [0, 0, 0, 0, 0, 0, 0, 0]) :=
  ⟨⟨by decide, by decide, rfl⟩, first_pop_fails 8 (by decide) (by decide) [0, 0, 0, 0, 0, 0, 0, 0] rfl 5⟩

/-- C5. For every queue state and value `v`, if `(tail + 1) & (N - 1) == head` then
`push(v)` returns `false` and the state afterwards is the state before: `head`, `tail` and
every slot are unchanged, so `v` is stored nowhere. -/
theorem push_full_unchanged {T : Type} {N : Nat} (q : SPSC_Queue T N) (v : T)
    (hfull : nextIndex N q.tail = q.head) :
    q.push v = some (false, q) := by
  simp [SPSC_Queue.push, hfull]

theorem push_full_unchanged_witness :
    nextIndex 4 (⟨2, 1, [5, 6, 7, 8]⟩ : SPSC_Queue Nat 4).tail =
        (⟨2, 1, [5, 6, 7, 8]⟩ : SPSC_Queue Nat 4).head ∧
    (⟨2, 1, [5, 6, 7, 8]⟩ : SPSC_Queue Nat 4).push 9 = some (false, ⟨2, 1, [5, 6, 7, 8]⟩) :=
  ⟨by decide, push_full_unchanged _ 9 (by decide)⟩

/-- C6. For every queue state and every initial value of `out`, if `head == tail` then
`pop(out)` returns `false`, `out` keeps its initial value, and `head`, `tail` and every
slot are unchanged. -/
theorem pop_empty_unchanged {T : Type} {N : Nat} (q : SPSC_Queue T N) (out : T)
    (hempty : q.head = q.tail) :
    q.pop out = some (false, out, q) := by
  simp [SPSC_Queue.pop, hempty]

theorem pop_empty_unchanged_witness :
    (⟨2, 2, [5, 6, 7, 8]⟩ : SPSC_Queue Nat 4).head =
        (⟨2, 2, [5, 6, 7, 8]⟩ : SPSC_Queue Nat 4).tail ∧
    (⟨2, 2, [5, 6, 7, 8]⟩ : SPSC_Queue Nat 4).pop 9 = some (false, 9, ⟨2, 2, [5, 6, 7, 8]⟩) :=
  ⟨rfl, pop_empty_unchanged _ 9 rfl⟩

/-- C8 (as stated, refuted). Capacity 1 and capacity 0 both satisfy the condition of the
`static_assert`, so the check does not enforce `N >= 2`. -/
theorem capacityCheck_accepts_one_and_zero :
    capacityCheck 1 = true ∧ capacityCheck 0 = true := by
  constructor <;> decide

/-- C8 (amended). The capacity check enforces the power-of-two constraint but not
`N >= 2`: capacity 1 passes, and every capacity `N >= 1` the check accepts is a power of
two, hence at least 2 unless it is 1. -/
theorem capacityCheck_accepts_only_powers_of_two :
    capacityCheck 1 = true ∧
    ∀ N : Nat, 1 ≤ N → N < 2 ^ 64 → capacityCheck N = true →
      (∃ k, N = 2 ^ k) ∧ (N ≠ 1 → 2 ≤ N) := by
  refine ⟨by decide, fun N h1 h64 hc => ⟨(capacityCheck_iff N h1 h64).1 hc, ?_⟩⟩
  intro hne
  omega

theorem capacityCheck_accepts_only_powers_of_two_witness :
    (1 ≤ 16 ∧ 16 < 2 ^ 64 ∧ capacityCheck 16 = true) ∧
    (∃ k, 16 = 2 ^ k) ∧ ((16 : Nat) ≠ 1 → 2 ≤ 16) :=
  ⟨⟨by decide, by decide, by decide⟩,
    capacityCheck_accepts_only_powers_of_two.2 16 (by decide) (by decide) (by decide)⟩

/-! ## The atomic accesses of one call compose to the member function -/

namespace Sys

variable {T : Type} {N : Nat}

/-- Run without interruption from outside a call, the accesses of `push(v)` have the effect
of `SPSC_Queue.push`: two accesses and no change when it returns `false`, four accesses,
the new queue and one more accepted value when it returns `true`. -/
theorem exec_push (q : SPSC_Queue T N) (cons : PopPC T) (acc del : List T) (v : T) :
    (∀ q1, q.push v = some (false, q1) →
      q1 = q ∧ (⟨q, PushPC.idle, cons, acc, del⟩ : Sys T N).exec [Ev.prod v, Ev.prod v] =
        some ⟨q, PushPC.idle, cons, acc, del⟩) ∧
    (∀ q1, q.push v = some (true, q1) →
      (⟨q, PushPC.idle, cons, acc, del⟩ : Sys T N).exec
          [Ev.prod v, Ev.prod v, Ev.prod v, Ev.prod v] =
        some ⟨q1, PushPC.idle, cons, acc ++ [v], del⟩) ∧
    (q.push v = none →
      (⟨q, PushPC.idle, cons, acc, del⟩ : Sys T N).exec [Ev.prod v, Ev.prod v, Ev.prod v] =
        none) := by
  by_cases hfull : nextIndex N q.tail = q.head
  · simp [SPSC_Queue.push, Sys.exec, Sys.step, Sys.stepPush, hfull]
  · by_cases htl : q.tail < q.buffer.length
    · simp [SPSC_Queue.push, Sys.exec, Sys.step, Sys.stepPush, hfull, htl]
    · simp [SPSC_Queue.push, Sys.exec, Sys.step, Sys.stepPush, hfull, htl]

/-- Run without interruption from outside a call, the accesses of `pop(out)` have the
effect of `SPSC_Queue.pop`: two accesses and no change when it returns `false`, four
accesses, the new queue and one more delivered value when it returns `true`. -/
theorem exec_pop (q : SPSC_Queue T N) (prod : PushPC T) (acc del : List T) (out : T) :
    (∀ x q1, q.pop out = some (false, x, q1) →
      x = out ∧ q1 = q ∧ (⟨q, prod, PopPC.idle, acc, del⟩ : Sys T N).exec [Ev.cons, Ev.cons] =
        some ⟨q, prod, PopPC.idle, acc, del⟩) ∧
    (∀ x q1, q.pop out = some (true, x, q1) →
      (⟨q, prod, PopPC.idle, acc, del⟩ : Sys T N).exec [Ev.cons, Ev.cons, Ev.cons, Ev.cons] =
        some ⟨q1, prod, PopPC.idle, acc, del ++ [x]⟩) ∧
    (q.pop out = none →
      (⟨q, prod, PopPC.idle, acc, del⟩ : Sys T N).exec [Ev.cons, Ev.cons, Ev.cons] = none) := by
  by_cases hempty : q.head = q.tail
  · simp [SPSC_Queue.pop, Sys.exec, Sys.step, Sys.stepPop, hempty]
  · cases hb : q.buffer[q.head]? with
    | none => simp [SPSC_Queue.pop, Sys.exec, Sys.step, Sys.stepPop, hempty, hb]
    | some y =>
      simp only [SPSC_Queue.pop, Sys.exec, Sys.step, Sys.stepPop, hempty, hb, if_false]
      refine ⟨?_, ?_, ?_⟩
      · intro x q1 h; simp at h
      · intro x q1 h
        simp only [Option.some.injEq, Prod.mk.injEq, true_and] at h
        obtain ⟨rfl, rfl⟩ := h
        rfl
      · intro h; simp at h

end Sys

/-! ## The invariant is established and preserved -/

namespace Sys

variable {T : Type} {N : Nat}

theorem Inv.fresh_state (slots : List T) (hlen : slots.length = N) :
    (Sys.fresh slots : Sys T N).Inv :=
  ⟨SPSC_Queue.Rep.fresh slots hlen, List.prefix_refl _, trivial, trivial⟩

theorem Inv.stepPush {s : Sys T N} (hinv : s.Inv) (hp : ∃ k, N = 2 ^ k) (h64 : N < 2 ^ 64)
    (v : T) : ∃ s1 : Sys T N, s.stepPush v = some s1 ∧ s1.Inv := by
  have h0 := pow2_pos hp
  obtain ⟨q, prod, cons, acc, del⟩ := s
  obtain ⟨hrep, hpre, hprod, hcons⟩ := hinv
  simp only at hrep hpre
  cases prod with
  | idle =>
    exact ⟨⟨q, PushPC.loaded v q.tail (nextIndex N q.tail), cons, acc, del⟩, rfl, hrep, hpre,
      ⟨rfl, rfl⟩, hcons⟩
  | loaded w t n =>
    obtain ⟨ht, hn⟩ := hprod
    simp only at ht hn
    by_cases hfull : n = q.head
    · exact ⟨⟨q, PushPC.idle, cons, acc, del⟩, by simp only [Sys.stepPush, hfull, if_true],
        hrep, hpre, trivial, hcons⟩
    · refine ⟨⟨q, PushPC.checked w t n, cons, acc, del⟩,
        by simp only [Sys.stepPush, hfull, if_false], hrep, hpre, ⟨ht, hn, ?_⟩, hcons⟩
      have hne : ¬ (acc.length + 1 = del.length + N) := by
        rw [← hrep.full_iff hp h64, ← ht, ← hn]
        exact hfull
      have := hrep.2.2.1
      show acc.length + 1 < del.length + N
      omega
  | checked w t n =>
    obtain ⟨ht, hn, hroom⟩ := hprod
    simp only at ht hn hroom
    subst ht
    have htl : q.tail < q.buffer.length := by
      rw [hrep.1]; exact (hrep.wf h0).2.1
    obtain ⟨hw, hv⟩ := hrep.write h0 w
    refine ⟨⟨{ q with buffer := q.buffer.set q.tail w }, PushPC.stored w q.tail n, cons, acc,
      del⟩, by simp only [Sys.stepPush, htl, if_true], hw, hpre, ⟨rfl, hn, hroom, hv⟩, ?_⟩
    cases cons <;> exact hcons
  | stored w t n =>
    obtain ⟨ht, hn, hroom, hv⟩ := hprod
    simp only at ht hn hroom hv
    have hn2 : n = (acc.length + 1) % N := by
      rw [hn, ht]; exact hrep.next_tail hp h64
    rw [ht] at hv
    have hpub := hrep.publish w hv hroom
    rw [← hn2] at hpub
    refine ⟨⟨{ q with tail := n }, PushPC.idle, cons, acc ++ [w], del⟩, rfl, hpub, ?_,
      trivial, ?_⟩
    · exact hpre.trans (List.prefix_append _ _)
    · cases cons with
      | idle => trivial
      | loaded h => exact hcons
      | checked h =>
        obtain ⟨hh, hlt⟩ := hcons
        exact ⟨hh, by simp only [List.length_append, List.length_singleton] at *; omega⟩
      | copied h x =>
        obtain ⟨hh, hlt, hx⟩ := hcons
        simp only at hlt hx
        refine ⟨hh, by simp only [List.length_append, List.length_singleton]; omega, ?_⟩
        show (acc ++ [w])[del.length]? = some x
        rw [List.getElem?_append_left hlt]
        exact hx

theorem Inv.stepPop {s : Sys T N} (hinv : s.Inv) (hp : ∃ k, N = 2 ^ k) (h64 : N < 2 ^ 64) :
    ∃ s1 : Sys T N, s.stepPop = some s1 ∧ s1.Inv := by
  have h0 := pow2_pos hp
  obtain ⟨q, prod, cons, acc, del⟩ := s
  obtain ⟨hrep, hpre, hprod, hcons⟩ := hinv
  simp only at hrep hpre
  cases cons with
  | idle =>
    exact ⟨⟨q, prod, PopPC.loaded q.head, acc, del⟩, rfl, hrep, hpre, hprod, rfl⟩
  | loaded h =>
    have hh : h = q.head := hcons
    by_cases hempty : h = q.tail
    · exact ⟨⟨q, prod, PopPC.idle, acc, del⟩, by simp only [Sys.stepPop, hempty, if_true],
        hrep, hpre, hprod, trivial⟩
    · refine ⟨⟨q, prod, PopPC.checked h, acc, del⟩,
        by simp only [Sys.stepPop, hempty, if_false], hrep, hpre, hprod, ⟨hh, ?_⟩⟩
      have hne : ¬ (del.length = acc.length) := by
        rw [← hrep.empty_iff h0, ← hh]
        exact hempty
      have := hrep.2.1
      show del.length < acc.length
      omega
  | checked h =>
    obtain ⟨hh, hlt⟩ := hcons
    simp only at hh hlt
    have hr : q.buffer[h]? = some acc[del.length] := by
      rw [hh, hrep.read hlt, List.getElem?_eq_getElem hlt]
    exact ⟨⟨q, prod, PopPC.copied h acc[del.length], acc, del⟩,
      by simp only [Sys.stepPop, hr], hrep, hpre, hprod,
      ⟨hh, hlt, List.getElem?_eq_getElem hlt⟩⟩
  | copied h x =>
    obtain ⟨hh, hlt, hx⟩ := hcons
    simp only at hh hlt hx
    have hcon := hrep.consume hlt
    rw [← hrep.next_head hp h64, ← hh] at hcon
    refine ⟨⟨{ q with head := nextIndex N h }, prod, PopPC.idle, acc, del ++ [x]⟩, rfl,
      ?_, ?_, ?_, trivial⟩
    · show SPSC_Queue.Rep _ acc (del ++ [x]).length
      rw [List.length_append, List.length_singleton]
      exact hcon
    · show del ++ [x] <+: acc
      rw [List.prefix_iff_eq_take] at hpre ⊢
      rw [List.length_append, List.length_singleton, List.take_succ, hx, ← hpre]
      rfl
    · cases prod with
      | idle => trivial
      | loaded w t n => exact hprod
      | checked w t n =>
        obtain ⟨ht, hn, hroom⟩ := hprod
        exact ⟨ht, hn, by simp only [List.length_append, List.length_singleton] at *; omega⟩
      | stored w t n =>
        obtain ⟨ht, hn, hroom, hv⟩ := hprod
        exact ⟨ht, hn, by simp only [List.length_append, List.length_singleton] at *; omega,
          hv⟩

theorem Inv.step {s : Sys T N} (hinv : s.Inv) (hp : ∃ k, N = 2 ^ k) (h64 : N < 2 ^ 64)
    (e : Ev T) : ∃ s1 : Sys T N, s.step e = some s1 ∧ s1.Inv := by
  cases e with
  | prod v => exact hinv.stepPush hp h64 v
  | cons => exact hinv.stepPop hp h64

theorem Inv.exec (hp : ∃ k, N = 2 ^ k) (h64 : N < 2 ^ 64) (es : List (Ev T)) :
    ∀ s : Sys T N, s.Inv → ∃ s1 : Sys T N, s.exec es = some s1 ∧ s1.Inv := by
  induction es with
  | nil => intro s hinv; exact ⟨s, rfl, hinv⟩
  | cons e es ih =>
    intro s hinv
    obtain ⟨s1, hs1, hinv1⟩ := hinv.step hp h64 e
    obtain ⟨s2, hs2, hinv2⟩ := ih s1 hinv1
    exact ⟨s2, by simp only [Sys.exec, hs1, hs2], hinv2⟩

theorem Inv.slots_differ {s : Sys T N} (hinv : s.Inv) (t h : Nat)
    (hw : s.writeSlot = some t) (hr : s.readSlot = some h) : t ≠ h := by
  obtain ⟨q, prod, cons, acc, del⟩ := s
  obtain ⟨hrep, -, hprod, hcons⟩ := hinv
  simp only at hrep
  have key : ∀ t h, t = q.tail → h = q.head → acc.length + 1 < del.length + N →
      del.length < acc.length → t ≠ h := by
    intro t h ht hh hroom hlt
    rw [ht, hh, hrep.2.2.2.1, hrep.2.2.2.2.1]
    exact (mod_ne_of_lt_of_sub_lt hlt (by omega)).symm
  cases prod with
  | idle => simp [Sys.writeSlot] at hw
  | loaded w t1 n => simp [Sys.writeSlot] at hw
  | checked w t1 n =>
    simp only [Sys.writeSlot, Option.some.injEq] at hw
    subst hw
    cases cons with
    | idle => simp [Sys.readSlot] at hr
    | loaded h1 => simp [Sys.readSlot] at hr
    | checked h1 =>
      simp only [Sys.readSlot, Option.some.injEq] at hr
      subst hr
      exact key _ _ hprod.1 hcons.1 hprod.2.2 hcons.2
    | copied h1 x =>
      simp only [Sys.readSlot, Option.some.injEq] at hr
      subst hr
      exact key _ _ hprod.1 hcons.1 hprod.2.2 hcons.2.1
  | stored w t1 n =>
    simp only [Sys.writeSlot, Option.some.injEq] at hw
    subst hw
    cases cons with
    | idle => simp [Sys.readSlot] at hr
    | loaded h1 => simp [Sys.readSlot] at hr
    | checked h1 =>
      simp only [Sys.readSlot, Option.some.injEq] at hr
      subst hr
      exact key _ _ hprod.1 hcons.1 hprod.2.2.1 hcons.2
    | copied h1 x =>
      simp only [Sys.readSlot, Option.some.injEq] at hr
      subst hr
      exact key _ _ hprod.1 hcons.1 hprod.2.2.1 hcons.2.1

end Sys

/-! ## The stress scenario -/

theorem prefix_range_eq (l : List Nat) (n : Nat) (h : l <+: List.range n) :
    l = List.range l.length := by
  have hle : l.length ≤ n := by simpa using h.length_le
  have h2 := List.prefix_iff_eq_take.1 h
  rw [List.take_range, Nat.min_eq_left hle] at h2
  exact h2

namespace Stress

variable {N : Nat}

theorem Inv.stress_fresh (P M : Nat) (slots : List Nat) (hlen : slots.length = N) :
    (Stress.fresh slots : Stress N).Inv P M :=
  ⟨Sys.Inv.fresh_state slots hlen, rfl, rfl, rfl, Nat.zero_le _,
    fun v hv => by simp [Stress.pushing, Stress.fresh, Sys.fresh] at hv, Nat.zero_le _,
    fun h => absurd rfl h⟩

theorem Inv.stress_step {P M : Nat} {s : Stress N} (hinv : s.Inv P M) (hp : ∃ k, N = 2 ^ k)
    (h64 : N < 2 ^ 64) (t : Thread) : ∃ s1 : Stress N, s.step P M t = some s1 ∧ s1.Inv P M := by
  obtain ⟨⟨q, prod, cons, acc, del⟩, next, coll⟩ := s
  obtain ⟨hsys, hnext, hcoll, hacc, hle, hpush, hclen, hcons⟩ := hinv
  simp only at hsys hnext hcoll hacc hle hclen hcons
  subst hnext hcoll
  cases t with
  | producer =>
    obtain ⟨s1, hs1, hinv1⟩ := hsys.stepPush hp h64 acc.length
    cases prod with
    | idle =>
      by_cases hlt : acc.length < P
      · have hstep : Stress.step P M ⟨⟨q, PushPC.idle, cons, acc, coll⟩, acc.length, coll⟩
            Thread.producer = some ⟨s1, acc.length, coll⟩ := by
          simp only [Stress.step, hlt, if_true, hs1]
        simp only [Sys.stepPush, Option.some.injEq] at hs1
        subst hs1
        refine ⟨_, hstep, hinv1, rfl, rfl, hacc, hle, ?_, hclen, hcons⟩
        intro v hv
        simp only [Stress.pushing, Option.some.injEq] at hv
        exact ⟨hv.symm, hlt⟩
      · have hstep : Stress.step P M ⟨⟨q, PushPC.idle, cons, acc, coll⟩, acc.length, coll⟩
            Thread.producer = some ⟨⟨q, PushPC.idle, cons, acc, coll⟩, acc.length, coll⟩ := by
          simp only [Stress.step, hlt, if_false]
        exact ⟨_, hstep, hsys, rfl, rfl, hacc, hle, hpush, hclen, hcons⟩
    | loaded w t n =>
      have hw := hpush w rfl
      have hstep : Stress.step P M ⟨⟨q, PushPC.loaded w t n, cons, acc, coll⟩, acc.length, coll⟩
          Thread.producer = some ⟨s1, acc.length, coll⟩ := by
        simp only [Stress.step, hs1]
      by_cases hfull : n = q.head
      · simp only [Sys.stepPush, hfull, if_true, Option.some.injEq] at hs1
        subst hs1
        refine ⟨_, hstep, hinv1, rfl, rfl, hacc, hle, ?_, hclen, hcons⟩
        intro v hv
        simp [Stress.pushing] at hv
      · simp only [Sys.stepPush, hfull, if_false, Option.some.injEq] at hs1
        subst hs1
        refine ⟨_, hstep, hinv1, rfl, rfl, hacc, hle, ?_, hclen, hcons⟩
        intro v hv
        simp only [Stress.pushing, Option.some.injEq] at hv
        subst hv
        exact hw
    | checked w t n =>
      have hw := hpush w rfl
      have hstep : Stress.step P M ⟨⟨q, PushPC.checked w t n, cons, acc, coll⟩, acc.length, coll⟩
          Thread.producer = some ⟨s1, acc.length, coll⟩ := by
        simp only [Stress.step, hs1]
      by_cases htl : t < q.buffer.length
      · simp only [Sys.stepPush, htl, if_true, Option.some.injEq] at hs1
        subst hs1
        refine ⟨_, hstep, hinv1, rfl, rfl, hacc, hle, ?_, hclen, hcons⟩
        intro v hv
        simp only [Stress.pushing, Option.some.injEq] at hv
        subst hv
        exact hw
      · simp [Sys.stepPush, htl] at hs1
    | stored w t n =>
      have hw := hpush w rfl
      simp only at hw
      have hstep : Stress.step P M ⟨⟨q, PushPC.stored w t n, cons, acc, coll⟩, acc.length, coll⟩
          Thread.producer = some ⟨s1, acc.length + 1, coll⟩ := by
        simp only [Stress.step, hs1]
      simp only [Sys.stepPush, Option.some.injEq] at hs1
      subst hs1
      refine ⟨_, hstep, hinv1, by simp, rfl, ?_, hw.2, ?_, hclen, hcons⟩
      · show acc ++ [w] = List.range (acc ++ [w]).length
        rw [List.length_append, List.length_singleton, List.range_succ, ← hacc, hw.1]
      · intro v hv
        simp [Stress.pushing] at hv
  | consumer =>
    obtain ⟨s1, hs1, hinv1⟩ := hsys.stepPop hp h64
    cases cons with
    | idle =>
      by_cases hlt : coll.length < M
      · have hstep : Stress.step P M ⟨⟨q, prod, PopPC.idle, acc, coll⟩, acc.length, coll⟩
            Thread.consumer = some ⟨s1, acc.length, coll⟩ := by
          simp only [Stress.step, hlt, if_true, hs1]
        simp only [Sys.stepPop, Option.some.injEq] at hs1
        subst hs1
        exact ⟨_, hstep, hinv1, rfl, rfl, hacc, hle, hpush, hclen, fun _ => hlt⟩
      · have hstep : Stress.step P M ⟨⟨q, prod, PopPC.idle, acc, coll⟩, acc.length, coll⟩
            Thread.consumer = some ⟨⟨q, prod, PopPC.idle, acc, coll⟩, acc.length, coll⟩ := by
          simp only [Stress.step, hlt, if_false]
        exact ⟨_, hstep, hsys, rfl, rfl, hacc, hle, hpush, hclen, hcons⟩
    | loaded h =>
      have hlt := hcons (by simp)
      have hstep : Stress.step P M ⟨⟨q, prod, PopPC.loaded h, acc, coll⟩, acc.length, coll⟩
          Thread.consumer = some ⟨s1, acc.length, coll⟩ := by
        simp only [Stress.step, hs1]
      by_cases hempty : h = q.tail
      · simp only [Sys.stepPop, hempty, if_true, Option.some.injEq] at hs1
        subst hs1
        exact ⟨_, hstep, hinv1, rfl, rfl, hacc, hle, hpush, hclen, fun _ => hlt⟩
      · simp only [Sys.stepPop, hempty, if_false, Option.some.injEq] at hs1
        subst hs1
        exact ⟨_, hstep, hinv1, rfl, rfl, hacc, hle, hpush, hclen, fun _ => hlt⟩
    | checked h =>
      have hlt := hcons (by simp)
      have hstep : Stress.step P M ⟨⟨q, prod, PopPC.checked h, acc, coll⟩, acc.length, coll⟩
          Thread.consumer = some ⟨s1, acc.length, coll⟩ := by
        simp only [Stress.step, hs1]
      cases hb : q.buffer[h]? with
      | none => simp [Sys.stepPop, hb] at hs1
      | some x =>
        simp only [Sys.stepPop, hb, Option.some.injEq] at hs1
        subst hs1
        exact ⟨_, hstep, hinv1, rfl, rfl, hacc, hle, hpush, hclen, fun _ => hlt⟩
    | copied h x =>
      have hlt := hcons (by simp)
      have hstep : Stress.step P M ⟨⟨q, prod, PopPC.copied h x, acc, coll⟩, acc.length, coll⟩
          Thread.consumer = some ⟨s1, acc.length, coll ++ [x]⟩ := by
        simp only [Stress.step, hs1]
      simp only [Sys.stepPop, Option.some.injEq] at hs1
      subst hs1
      refine ⟨_, hstep, hinv1, rfl, rfl, hacc, hle, hpush, ?_, fun hne => absurd rfl hne⟩
      simp only [List.length_append, List.length_singleton]
      omega

theorem Inv.stress_exec {P M : Nat} (hp : ∃ k, N = 2 ^ k) (h64 : N < 2 ^ 64) (ts : List Thread) :
    ∀ s : Stress N, s.Inv P M → ∃ s1 : Stress N, s.exec P M ts = some s1 ∧ s1.Inv P M := by
  induction ts with
  | nil => intro s hinv; exact ⟨s, rfl, hinv⟩
  | cons t ts ih =>
    intro s hinv
    obtain ⟨s1, hs1, hinv1⟩ := hinv.stress_step hp h64 t
    obtain ⟨s2, hs2, hinv2⟩ := ih s1 hinv1
    exact ⟨s2, by simp only [Stress.exec, hs1, hs2], hinv2⟩

theorem Inv.collected_range {P M : Nat} {s : Stress N} (hinv : s.Inv P M) :
    s.collected = List.range s.collected.length ∧ s.collected.length ≤ M := by
  obtain ⟨hsys, -, hcoll, hacc, -, -, hclen, -⟩ := hinv
  refine ⟨?_, hclen⟩
  have hpre : s.collected <+: List.range s.sys.accepted.length := by
    rw [hcoll, ← hacc]
    exact hsys.2.1
  exact prefix_range_eq _ _ hpre

end Stress

/-! ## Concurrent contract -/

/-- C10. In every interleaving of a producer executing `push` calls and a consumer
executing `pop` calls on a fresh queue of power-of-two capacity `N >= 2`, no access is
outside the array, and whenever the producer is between its check and its `tail.store`
(writing slot `t`) while the consumer is between its check and its `head.store` (reading
slot `h`), the two slots differ. -/
theorem push_pop_slots_disjoint {T : Type} (N : Nat) (_hN : 2 ≤ N) (h64 : N < 2 ^ 64)
    (hp : ∃ k, N = 2 ^ k) (slots : List T) (hlen : slots.length = N) (es : List (Ev T)) :
    ∃ s : Sys T N, (Sys.fresh slots : Sys T N).exec es = some s ∧
      ∀ t h, s.writeSlot = some t → s.readSlot = some h → t ≠ h := by
  obtain ⟨s, hs, hinv⟩ := Sys.Inv.exec hp h64 es _ (Sys.Inv.fresh_state slots hlen)
  exact ⟨s, hs, fun t h hw hr => hinv.slots_differ t h hw hr⟩

theorem push_pop_slots_disjoint_witness :
    (2 ≤ 4 ∧ 4 < 2 ^ 64 ∧ (∃ k, 4 = 2 ^ k) ∧ [0, 0, 0, 0].length = 4) ∧
    ((Sys.fresh [0, 0, 0, 0] : Sys Nat 4).exec
        [Ev.prod 7, Ev.prod 7, Ev.prod 7, Ev.prod 7, Ev.prod 8, Ev.prod 8, Ev.cons, Ev.cons] =
      some ⟨⟨0, 1, [7, 0, 0, 0]⟩, PushPC.checked 8 1 2, PopPC.checked 0, [7], []⟩) ∧
    ∃ s : Sys Nat 4, (Sys.fresh [0, 0, 0, 0] : Sys Nat 4).exec
        [Ev.prod 7, Ev.prod 7, Ev.prod 7, Ev.prod 7, Ev.prod 8, Ev.prod 8, Ev.cons, Ev.cons] =
        some s ∧
      ∀ t h, s.writeSlot = some t → s.readSlot = some h → t ≠ h :=
  ⟨⟨by decide, by decide, ⟨2, rfl⟩, rfl⟩, by decide,
    push_pop_slots_disjoint 4 (by decide) (by decide) ⟨2, rfl⟩ [0, 0, 0, 0] rfl _⟩

/-! ## The stress scenario can always be completed -/

namespace Stress

variable {N : Nat}

theorem Inv.progress {P M : Nat} {s : Stress N} (hinv : s.Inv P M) (hN : 2 ≤ N)
    (hp : ∃ k, N = 2 ^ k) (h64 : N < 2 ^ 64) (hPM : M ≤ P) (hrem : s.collected.length < M) :
    ∃ s1 : Stress N, s.step P M s.pick = some s1 ∧ s1.Inv P M ∧ s1.rank M < s.rank M := by
  have h0 := pow2_pos hp
  obtain ⟨s1, hs1, hinv1⟩ := hinv.stress_step hp h64 s.pick
  refine ⟨s1, hs1, hinv1, ?_⟩
  obtain ⟨⟨q, prod, cons, acc, del⟩, next, coll⟩ := s
  obtain ⟨⟨hrep, hpre, hprod, hcons⟩, hnext, hcoll, hacc, hle, hpush, hclen, -⟩ := hinv
  simp only at hrep hpre hnext hcoll hacc hle hclen hrem
  subst hnext hcoll
  by_cases hne : coll.length < acc.length
  · have hpick : Stress.pick ⟨⟨q, prod, cons, acc, coll⟩, acc.length, coll⟩ =
        Thread.consumer := by
      simp only [Stress.pick, hne, if_true]
    rw [hpick] at hs1
    cases cons with
    | idle =>
      simp only [Stress.step, hrem, if_true, Sys.stepPop, Option.some.injEq] at hs1
      subst hs1
      simp only [Stress.rank, Stress.cost, hne, if_true]
      omega
    | loaded h =>
      have hh : h = q.head := hcons
      have hnt : ¬ h = q.tail := by
        rw [hh, hrep.empty_iff h0]; omega
      simp only [Stress.step, Sys.stepPop, hnt, if_false, Option.some.injEq] at hs1
      subst hs1
      simp only [Stress.rank, Stress.cost, hne, if_true]
      omega
    | checked h =>
      cases hb : q.buffer[h]? with
      | none => simp [Stress.step, Sys.stepPop, hb] at hs1
      | some x =>
        simp only [Stress.step, Sys.stepPop, hb, Option.some.injEq] at hs1
        subst hs1
        simp only [Stress.rank, Stress.cost, hne, if_true]
        omega
    | copied h x =>
      simp only [Stress.step, Sys.stepPop, Option.some.injEq] at hs1
      subst hs1
      simp only [Stress.rank, Stress.cost, hne, if_true, List.length_append,
        List.length_singleton]
      split <;> cases prod <;> (try simp only) <;> omega
  · have heq : coll.length = acc.length := by have := hrep.2.1; omega
    cases cons with
    | idle =>
      have hpick : Stress.pick ⟨⟨q, prod, PopPC.idle, acc, coll⟩, acc.length, coll⟩ =
          Thread.producer := by
        simp only [Stress.pick, hne, if_false]
      rw [hpick] at hs1
      cases prod with
      | idle =>
        have hlt : acc.length < P := by omega
        simp only [Stress.step, hlt, if_true, Sys.stepPush, Option.some.injEq] at hs1
        subst hs1
        simp only [Stress.rank, Stress.cost, hne, if_false]
        omega
      | loaded w t n =>
        obtain ⟨ht, hn⟩ := hprod
        simp only at ht hn
        have hnf : ¬ n = q.head := by
          rw [hn, ht, hrep.full_iff hp h64]; omega
        simp only [Stress.step, Sys.stepPush, hnf, if_false, Option.some.injEq] at hs1
        subst hs1
        simp only [Stress.rank, Stress.cost, hne, if_false]
        omega
      | checked w t n =>
        by_cases htl : t < q.buffer.length
        · simp only [Stress.step, Sys.stepPush, htl, if_true, Option.some.injEq] at hs1
          subst hs1
          simp only [Stress.rank, Stress.cost, hne, if_false]
          omega
        · simp [Stress.step, Sys.stepPush, htl] at hs1
      | stored w t n =>
        simp only [Stress.step, Sys.stepPush, Option.some.injEq] at hs1
        subst hs1
        have hne2 : coll.length < (acc ++ [w]).length := by
          rw [List.length_append, List.length_singleton]; omega
        simp only [Stress.rank, Stress.cost, hne, hne2, if_true, if_false]
        omega
    | loaded h =>
      have hpick : Stress.pick ⟨⟨q, prod, PopPC.loaded h, acc, coll⟩, acc.length, coll⟩ =
          Thread.consumer := by
        simp only [Stress.pick, hne, if_false]
      rw [hpick] at hs1
      have hh : h = q.head := hcons
      have hnt : h = q.tail := by
        rw [hh, hrep.empty_iff h0]; exact heq
      simp only [Stress.step, Sys.stepPop, hnt, if_true, Option.some.injEq] at hs1
      subst hs1
      simp only [Stress.rank, Stress.cost, hne, if_false]
      omega
    | checked h =>
      exact absurd hcons.2 hne
    | copied h x =>
      exact absurd hcons.2.1 hne

theorem exec_append {P M : Nat} (ts1 ts2 : List Thread) :
    ∀ (s s1 : Stress N), s.exec P M ts1 = some s1 →
      s.exec P M (ts1 ++ ts2) = s1.exec P M ts2 := by
  induction ts1 with
  | nil =>
    intro s s1 h
    simp only [Stress.exec, Option.some.injEq] at h
    subst h
    rfl
  | cons t ts ih =>
    intro s s1 h
    rw [List.cons_append]
    cases hst : s.step P M t with
    | none => simp [Stress.exec, hst] at h
    | some s2 =>
      simp only [Stress.exec, hst] at h ⊢
      exact ih s2 s1 h

theorem Inv.completes {P M : Nat} (hN : 2 ≤ N) (hp : ∃ k, N = 2 ^ k) (h64 : N < 2 ^ 64)
    (hPM : M ≤ P) :
    ∀ (r : Nat) (s : Stress N), s.Inv P M → s.rank M ≤ r →
      ∃ (ts : List Thread) (s1 : Stress N),
        s.exec P M ts = some s1 ∧ s1.collected = List.range M := by
  intro r
  induction r with
  | zero =>
    intro s hinv hr
    have hlen : ¬ s.collected.length < M := by
      intro hlt
      have : 16 * (M - s.collected.length) ≤ 0 := by
        unfold Stress.rank at hr; omega
      omega
    have hc := hinv.collected_range
    refine ⟨[], s, rfl, ?_⟩
    have : s.collected.length = M := by omega
    rw [← this]
    exact hc.1
  | succ r ih =>
    intro s hinv hr
    by_cases hlt : s.collected.length < M
    · obtain ⟨s1, hs1, hinv1, hrank⟩ := hinv.progress hN hp h64 hPM hlt
      obtain ⟨ts, s2, hs2, hcol⟩ := ih s1 hinv1 (by omega)
      exact ⟨s.pick :: ts, s2, by simp only [Stress.exec, hs1, hs2], hcol⟩
    · have hc := hinv.collected_range
      refine ⟨[], s, rfl, ?_⟩
      have : s.collected.length = M := by omega
      rw [← this]
      exact hc.1

end Stress

/-! ## Concurrent stress contract -/

/-- C9. For every power-of-two capacity `N >= 2` and every `M`, under every interleaving of
the atomic accesses of a producer pushing the integers `0, 1, ..` in order up to a bound
`P >= M` (each push repeated until it returns `true`) and a consumer popping (repeated
until it returns `true`) until `M` values are collected: no access is outside the array,
the collected sequence is at every moment `0, 1, .., c - 1` with `c <= M`, it is exactly
`0 .. M` (the `M` values `0, 1, .., M - 1`) once `M` values are collected, and the
interleaving can always be continued until that is the case. -/
theorem stress_collects_in_order (N : Nat) (hN : 2 ≤ N) (h64 : N < 2 ^ 64)
    (hp : ∃ k, N = 2 ^ k) (P M : Nat) (hPM : M ≤ P) (slots : List Nat)
    (hlen : slots.length = N) (ts : List Thread) :
    ∃ s : Stress N, (Stress.fresh slots : Stress N).exec P M ts = some s ∧
      s.collected = List.range s.collected.length ∧ s.collected.length ≤ M ∧
      (s.collected.length = M → s.collected = List.range M) ∧
      ∃ (more : List Thread) (s1 : Stress N),
        (Stress.fresh slots : Stress N).exec P M (ts ++ more) = some s1 ∧
        s1.collected = List.range M := by
  obtain ⟨s, hs, hinv⟩ :=
    Stress.Inv.stress_exec hp h64 ts _ (Stress.Inv.stress_fresh P M slots hlen)
  obtain ⟨hrange, hle⟩ := hinv.collected_range
  obtain ⟨more, s1, hs1, hcol⟩ := Stress.Inv.completes hN hp h64 hPM _ s hinv (le_refl _)
  refine ⟨s, hs, hrange, hle, ?_, more, s1, ?_, hcol⟩
  · intro hM
    rw [← hM]
    exact hrange
  · rw [Stress.exec_append ts more _ s hs]
    exact hs1

theorem stress_collects_in_order_witness :
    (2 ≤ 2 ∧ 2 < 2 ^ 64 ∧ (∃ k, 2 = 2 ^ k) ∧ 2 ≤ 3 ∧ [0, 0].length = 2) ∧
    ((Stress.fresh [0, 0] : Stress 2).exec 3 2
        [Thread.producer, Thread.consumer, Thread.producer, Thread.consumer, Thread.producer,
          Thread.producer, Thread.producer, Thread.consumer, Thread.consumer, Thread.producer,
          Thread.consumer, Thread.consumer, Thread.consumer]).map (fun s => s.collected) =
      some [0] ∧
    ∃ s : Stress 2, (Stress.fresh [0, 0] : Stress 2).exec 3 2
        [Thread.producer, Thread.consumer, Thread.producer, Thread.consumer, Thread.producer,
          Thread.producer, Thread.producer, Thread.consumer, Thread.consumer, Thread.producer,
          Thread.consumer, Thread.consumer, Thread.consumer] = some s ∧
      s.collected = List.range s.collected.length ∧ s.collected.length ≤ 2 ∧
      (s.collected.length = 2 → s.collected = List.range 2) ∧
      ∃ (more : List Thread) (s1 : Stress 2),
        (Stress.fresh [0, 0] : Stress 2).exec 3 2
          ([Thread.producer, Thread.consumer, Thread.producer, Thread.consumer,
            Thread.producer, Thread.producer, Thread.producer, Thread.consumer,
            Thread.consumer, Thread.producer, Thread.consumer, Thread.consumer,
            Thread.consumer] ++ more) = some s1 ∧
        s1.collected = List.range 2 :=
  ⟨⟨by decide, by decide, ⟨1, rfl⟩, by decide, rfl⟩, by decide,
    stress_collects_in_order 2 (by decide) (by decide) ⟨1, rfl⟩ 3 2 (by decide) [0, 0] rfl _⟩

/-! ## Behaviour of a single call -/

/-- C11. For every queue state with `head, tail < N` (and the `N` slots of the array) and
every value `v`, if `(tail + 1) & (N - 1) != head` then `push(v)` returns `true`, the slot
at the old tail index holds `v` afterwards, and the new tail is
`(old tail + 1) & (N - 1)`. -/
theorem push_success_effect {T : Type} {N : Nat} (q : SPSC_Queue T N) (hwf : q.WF) (v : T)
    (hroom : nextIndex N q.tail ≠ q.head) :
    ∃ q1 : SPSC_Queue T N, q.push v = some (true, q1) ∧
      q1.buffer[q.tail]? = some v ∧ q1.tail = nextIndex N q.tail := by
  obtain ⟨-, ht, hl⟩ := hwf
  have htl : q.tail < q.buffer.length := by rw [hl]; exact ht
  refine ⟨{ q with buffer := q.buffer.set q.tail v, tail := nextIndex N q.tail }, ?_, ?_, rfl⟩
  · simp only [SPSC_Queue.push, hroom, htl, if_true, if_false]
  · exact List.getElem?_set_self htl

theorem push_success_effect_witness :
    ((⟨1, 3, [5, 6, 7, 8]⟩ : SPSC_Queue Nat 4).WF ∧
      nextIndex 4 (⟨1, 3, [5, 6, 7, 8]⟩ : SPSC_Queue Nat 4).tail ≠
        (⟨1, 3, [5, 6, 7, 8]⟩ : SPSC_Queue Nat 4).head) ∧
    (⟨1, 3, [5, 6, 7, 8]⟩ : SPSC_Queue Nat 4).push 9 = some (true, ⟨1, 0, [5, 6, 7, 9]⟩) ∧
    ∃ q1 : SPSC_Queue Nat 4,
      (⟨1, 3, [5, 6, 7, 8]⟩ : SPSC_Queue Nat 4).push 9 = some (true, q1) ∧
      q1.buffer[(⟨1, 3, [5, 6, 7, 8]⟩ : SPSC_Queue Nat 4).tail]? = some 9 ∧
      q1.tail = nextIndex 4 (⟨1, 3, [5, 6, 7, 8]⟩ : SPSC_Queue Nat 4).tail :=
  ⟨⟨⟨by decide, by decide, rfl⟩, by decide⟩, by decide,
    push_success_effect ⟨1, 3, [5, 6, 7, 8]⟩ ⟨by decide, by decide, rfl⟩ 9 (by decide)⟩

/-- C12. For every queue state with `head, tail < N` (and the `N` slots of the array), if
`head != tail` then `pop(out)` returns `true`, `out` is the content of the slot at the old
head index, and the new head is `(old head + 1) & (N - 1)`. -/
theorem pop_success_effect {T : Type} {N : Nat} (q : SPSC_Queue T N) (hwf : q.WF) (out : T)
    (hne : q.head ≠ q.tail) :
    ∃ (x : T) (q1 : SPSC_Queue T N), q.pop out = some (true, x, q1) ∧
      q.buffer[q.head]? = some x ∧ q1.head = nextIndex N q.head := by
  obtain ⟨hh, -, hl⟩ := hwf
  have hhl : q.head < q.buffer.length := by rw [hl]; exact hh
  have hx : q.buffer[q.head]? = some q.buffer[q.head] := List.getElem?_eq_getElem hhl
  refine ⟨q.buffer[q.head], { q with head := nextIndex N q.head }, ?_, hx, rfl⟩
  simp only [SPSC_Queue.pop, hne, if_false, hx]

theorem pop_success_effect_witness :
    ((⟨3, 1, [5, 6, 7, 8]⟩ : SPSC_Queue Nat 4).WF ∧
      (⟨3, 1, [5, 6, 7, 8]⟩ : SPSC_Queue Nat 4).head ≠
        (⟨3, 1, [5, 6, 7, 8]⟩ : SPSC_Queue Nat 4).tail) ∧
    (⟨3, 1, [5, 6, 7, 8]⟩ : SPSC_Queue Nat 4).pop 0 = some (true, 8, ⟨0, 1, [5, 6, 7, 8]⟩) ∧
    ∃ (x : Nat) (q1 : SPSC_Queue Nat 4),
      (⟨3, 1, [5, 6, 7, 8]⟩ : SPSC_Queue Nat 4).pop 0 = some (true, x, q1) ∧
      (⟨3, 1, [5, 6, 7, 8]⟩ : SPSC_Queue Nat 4).buffer[
        (⟨3, 1, [5, 6, 7, 8]⟩ : SPSC_Queue Nat 4).head]? = some x ∧
      q1.head = nextIndex 4 (⟨3, 1, [5, 6, 7, 8]⟩ : SPSC_Queue Nat 4).head :=
  ⟨⟨⟨by decide, by decide, rfl⟩, by decide⟩, by decide,
    pop_success_effect ⟨3, 1, [5, 6, 7, 8]⟩ ⟨by decide, by decide, rfl⟩ 0 (by decide)⟩

/-- C15. Cursor ownership as a frame property. Whatever `push` returns, it leaves `head`
unchanged and every slot other than the one at the old tail index unchanged (the array
keeps its length); whatever `pop` returns, it leaves `tail` and the whole array unchanged.
Both calls do return whenever the cursor they index with lies inside the array. -/
theorem push_pop_frame {T : Type} {N : Nat} (q : SPSC_Queue T N) :
    (∀ (v : T) (b : Bool) (q1 : SPSC_Queue T N), q.push v = some (b, q1) →
      q1.head = q.head ∧ q1.buffer.length = q.buffer.length ∧
      ∀ i, i ≠ q.tail → q1.buffer[i]? = q.buffer[i]?) ∧
    (∀ (out : T) (b : Bool) (x : T) (q1 : SPSC_Queue T N), q.pop out = some (b, x, q1) →
      q1.tail = q.tail ∧ q1.buffer = q.buffer) ∧
    (q.tail < q.buffer.length → ∀ v : T, (q.push v).isSome = true) ∧
    (q.head < q.buffer.length → ∀ out : T, (q.pop out).isSome = true) := by
  refine ⟨?_, ?_, ?_, ?_⟩
  · intro v b q1 h
    by_cases hfull : nextIndex N q.tail = q.head
    · simp only [SPSC_Queue.push, hfull, if_true, Option.some.injEq, Prod.mk.injEq] at h
      obtain ⟨-, rfl⟩ := h
      exact ⟨rfl, rfl, fun _ _ => rfl⟩
    · by_cases htl : q.tail < q.buffer.length
      · simp only [SPSC_Queue.push, hfull, htl, if_true, if_false, Option.some.injEq,
          Prod.mk.injEq] at h
        obtain ⟨-, rfl⟩ := h
        refine ⟨rfl, List.length_set _ _ _, ?_⟩
        intro i hi
        exact List.getElem?_set_ne (Ne.symm hi)
      · simp [SPSC_Queue.push, hfull, htl] at h
  · intro out b x q1 h
    by_cases hempty : q.head = q.tail
    · simp only [SPSC_Queue.pop, hempty, if_true, Option.some.injEq, Prod.mk.injEq] at h
      obtain ⟨-, -, rfl⟩ := h
      exact ⟨rfl, rfl⟩
    · cases hb : q.buffer[q.head]? with
      | none => simp [SPSC_Queue.pop, hempty, hb] at h
      | some y =>
        simp only [SPSC_Queue.pop, hempty, hb, if_false, Option.some.injEq,
          Prod.mk.injEq] at h
        obtain ⟨-, -, rfl⟩ := h
        exact ⟨rfl, rfl⟩
  · intro htl v
    by_cases hfull : nextIndex N q.tail = q.head
    · simp [SPSC_Queue.push, hfull]
    · simp [SPSC_Queue.push, hfull, htl]
  · intro hhl out
    by_cases hempty : q.head = q.tail
    · simp [SPSC_Queue.pop, hempty]
    · simp [SPSC_Queue.pop, hempty, List.getElem?_eq_getElem hhl]

theorem push_pop_frame_witness :
    ((⟨1, 3, [5, 6, 7, 8]⟩ : SPSC_Queue Nat 4).push 9 = some (true, ⟨1, 0, [5, 6, 7, 9]⟩) ∧
      (⟨1, 3, [5, 6, 7, 8]⟩ : SPSC_Queue Nat 4).pop 0 = some (true, 6, ⟨2, 3, [5, 6, 7, 8]⟩) ∧
      (⟨1, 3, [5, 6, 7, 8]⟩ : SPSC_Queue Nat 4).tail <
        (⟨1, 3, [5, 6, 7, 8]⟩ : SPSC_Queue Nat 4).buffer.length ∧
      (⟨1, 3, [5, 6, 7, 8]⟩ : SPSC_Queue Nat 4).head <
        (⟨1, 3, [5, 6, 7, 8]⟩ : SPSC_Queue Nat 4).buffer.length) ∧
    ((⟨1, 0, [5, 6, 7, 9]⟩ : SPSC_Queue Nat 4).head =
        (⟨1, 3, [5, 6, 7, 8]⟩ : SPSC_Queue Nat 4).head ∧
      (⟨1, 0, [5, 6, 7, 9]⟩ : SPSC_Queue Nat 4).buffer.length =
        (⟨1, 3, [5, 6, 7, 8]⟩ : SPSC_Queue Nat 4).buffer.length ∧
      ∀ i, i ≠ (⟨1, 3, [5, 6, 7, 8]⟩ : SPSC_Queue Nat 4).tail →
        (⟨1, 0, [5, 6, 7, 9]⟩ : SPSC_Queue Nat 4).buffer[i]? =
          (⟨1, 3, [5, 6, 7, 8]⟩ : SPSC_Queue Nat 4).buffer[i]?) ∧
    ((⟨2, 3, [5, 6, 7, 8]⟩ : SPSC_Queue Nat 4).tail =
        (⟨1, 3, [5, 6, 7, 8]⟩ : SPSC_Queue Nat 4).tail ∧
      (⟨2, 3, [5, 6, 7, 8]⟩ : SPSC_Queue Nat 4).buffer =
        (⟨1, 3, [5, 6, 7, 8]⟩ : SPSC_Queue Nat 4).buffer) ∧
    ((⟨1, 3, [5, 6, 7, 8]⟩ : SPSC_Queue Nat 4).push 9).isSome = true ∧
    ((⟨1, 3, [5, 6, 7, 8]⟩ : SPSC_Queue Nat 4).pop 0).isSome = true :=
  ⟨⟨by decide, by decide, by decide, by decide⟩,
    (push_pop_frame (⟨1, 3, [5, 6, 7, 8]⟩ : SPSC_Queue Nat 4)).1 9 true
      ⟨1, 0, [5, 6, 7, 9]⟩ (by decide),
    (push_pop_frame (⟨1, 3, [5, 6, 7, 8]⟩ : SPSC_Queue Nat 4)).2.1 0 true 6
      ⟨2, 3, [5, 6, 7, 8]⟩ (by decide),
    (push_pop_frame (⟨1, 3, [5, 6, 7, 8]⟩ : SPSC_Queue Nat 4)).2.2.1 (by decide) 9,
    (push_pop_frame (⟨1, 3, [5, 6, 7, 8]⟩ : SPSC_Queue Nat 4)).2.2.2 (by decide) 0⟩

/-- C16. For every power of two `N` representable in a 64-bit `std::size_t` and every
cursor `t < N`, the bit-mask step is the modular successor:
`(t + 1) & (N - 1) == (t + 1) mod N`, where `t + 1` does not overflow and `N - 1` does not
wrap; the result is `0` when `t == N - 1` and `t + 1` otherwise. -/
theorem nextIndex_is_modular_successor (N : Nat) (hp : ∃ k, N = 2 ^ k) (h64 : N < 2 ^ 64)
    (t : Nat) (ht : t < N) :
    nextIndex N t = (t + 1) % N ∧ sizeAdd t 1 = t + 1 ∧ sizeSub N 1 = N - 1 ∧
    (t = N - 1 → nextIndex N t = 0) ∧ (t ≠ N - 1 → nextIndex N t = t + 1) := by
  have h0 := pow2_pos hp
  have hmod := nextIndex_mod_of_pow2 hp h64 t ht
  refine ⟨hmod, sizeAdd_one t (by omega), sizeSub_one N h0 h64, ?_, ?_⟩
  · intro he
    have : t + 1 = N := by omega
    rw [hmod, this, Nat.mod_self]
  · intro hne
    rw [hmod, Nat.mod_eq_of_lt (by omega)]

theorem nextIndex_is_modular_successor_witness :
    ((∃ k, 8 = 2 ^ k) ∧ 8 < 2 ^ 64 ∧ 7 < 8) ∧
    nextIndex 8 7 = (7 + 1) % 8 ∧ sizeAdd 7 1 = 7 + 1 ∧ sizeSub 8 1 = 8 - 1 ∧
    (7 = 8 - 1 → nextIndex 8 7 = 0) ∧ (7 ≠ 8 - 1 → nextIndex 8 7 = 7 + 1) :=
  ⟨⟨⟨3, rfl⟩, by decide, by decide⟩,
    nextIndex_is_modular_successor 8 ⟨3, rfl⟩ (by decide) 7 (by decide)⟩

/-! ## Reachable states -/

namespace SPSC_Queue

variable {T : Type} {N : Nat}

/-- A run started in a state that represents the history `acc`, `H` ends in a state that
represents the history extended by what the run accepted and delivered. -/
theorem Rep.run_rep (hp : ∃ k, N = 2 ^ k) (h64 : N < 2 ^ 64) (ops : List (Op T)) :
    ∀ (q : SPSC_Queue T N) (acc : List T) (H : Nat), q.Rep acc H →
      ∃ (rs : List (Res T)) (q1 : SPSC_Queue T N), q.run ops = some (rs, q1) ∧
        q1.Rep (acc ++ acceptedValues ops rs) (H + (deliveredValues rs).length) := by
  have h0 := pow2_pos hp
  induction ops with
  | nil =>
    intro q acc H h
    refine ⟨[], q, rfl, ?_⟩
    simpa [acceptedValues, deliveredValues] using h
  | cons op ops ih =>
    intro q acc H h
    cases op with
    | push v =>
      by_cases hroom : acc.length + 1 < H + N
      · obtain ⟨q1, hq1, hrep⟩ := h.push_ok hp h64 v hroom
        obtain ⟨rs, q2, hq2, hrep2⟩ := ih q1 _ _ hrep
        refine ⟨Res.push true :: rs, q2, by simp only [run, hq1, hq2], ?_⟩
        simpa [acceptedValues, deliveredValues] using hrep2
      · have hfull : acc.length + 1 = H + N := by have := h.2.2.1; omega
        obtain ⟨rs, q2, hq2, hrep2⟩ := ih q _ _ h
        refine ⟨Res.push false :: rs, q2,
          by simp only [run, h.push_when_full hp h64 v hfull, hq2], ?_⟩
        simpa [acceptedValues, deliveredValues] using hrep2
    | pop out =>
      by_cases hne : H < acc.length
      · obtain ⟨q1, hq1, hrep⟩ := h.pop_ok hp h64 out hne
        obtain ⟨rs, q2, hq2, hrep2⟩ := ih q1 _ _ hrep
        refine ⟨Res.pop true acc[H] :: rs, q2, by simp only [run, hq1, hq2], ?_⟩
        have harith : H + 1 + (deliveredValues rs).length =
            H + ((deliveredValues rs).length + 1) := by omega
        simpa [acceptedValues, deliveredValues, harith] using hrep2
      · have he : H = acc.length := by have := h.2.1; omega
        obtain ⟨rs, q2, hq2, hrep2⟩ := ih q _ _ h
        refine ⟨Res.pop false out :: rs, q2,
          by simp only [run, h.pop_when_empty h0 out he, hq2], ?_⟩
        simpa [acceptedValues, deliveredValues] using hrep2

theorem WF.push (hp : ∃ k, N = 2 ^ k) (h64 : N < 2 ^ 64) {q : SPSC_Queue T N} (hwf : q.WF)
    (v : T) : ∃ (b : Bool) (q1 : SPSC_Queue T N), q.push v = some (b, q1) ∧ q1.WF := by
  have h0 := pow2_pos hp
  obtain ⟨hh, ht, hl⟩ := hwf
  by_cases hfull : nextIndex N q.tail = q.head
  · exact ⟨false, q, SPSC_Queue.push_full q v hfull, hh, ht, hl⟩
  · have htl : q.tail < q.buffer.length := by rw [hl]; exact ht
    refine ⟨true, { q with buffer := q.buffer.set q.tail v, tail := nextIndex N q.tail },
      by simp only [SPSC_Queue.push, hfull, htl, if_true, if_false], hh, ?_, ?_⟩
    · show nextIndex N q.tail < N
      rw [nextIndex_mod_of_pow2 hp h64 _ ht]
      exact Nat.mod_lt _ h0
    · show (q.buffer.set q.tail v).length = N
      rw [List.length_set]; exact hl

theorem WF.pop (hp : ∃ k, N = 2 ^ k) (h64 : N < 2 ^ 64) {q : SPSC_Queue T N} (hwf : q.WF)
    (out : T) :
    ∃ (b : Bool) (x : T) (q1 : SPSC_Queue T N), q.pop out = some (b, x, q1) ∧ q1.WF := by
  have h0 := pow2_pos hp
  obtain ⟨hh, ht, hl⟩ := hwf
  by_cases hempty : q.head = q.tail
  · exact ⟨false, out, q, SPSC_Queue.pop_empty q out hempty, hh, ht, hl⟩
  · have hhl : q.head < q.buffer.length := by rw [hl]; exact hh
    have hx : q.buffer[q.head]? = some q.buffer[q.head] := List.getElem?_eq_getElem hhl
    refine ⟨true, q.buffer[q.head], { q with head := nextIndex N q.head },
      by simp only [SPSC_Queue.pop, hempty, if_false, hx], ?_, ht, hl⟩
    show nextIndex N q.head < N
    rw [nextIndex_mod_of_pow2 hp h64 _ hh]
    exact Nat.mod_lt _ h0

theorem WF.run (hp : ∃ k, N = 2 ^ k) (h64 : N < 2 ^ 64) (ops : List (Op T)) :
    ∀ q : SPSC_Queue T N, q.WF →
      ∃ (rs : List (Res T)) (q1 : SPSC_Queue T N), q.run ops = some (rs, q1) ∧ q1.WF := by
  induction ops with
  | nil => intro q hwf; exact ⟨[], q, rfl, hwf⟩
  | cons op ops ih =>
    intro q hwf
    cases op with
    | push v =>
      obtain ⟨b, q1, hq1, hwf1⟩ := hwf.push hp h64 v
      obtain ⟨rs, q2, hq2, hwf2⟩ := ih q1 hwf1
      exact ⟨Res.push b :: rs, q2, by simp only [SPSC_Queue.run, hq1, hq2], hwf2⟩
    | pop out =>
      obtain ⟨b, x, q1, hq1, hwf1⟩ := hwf.pop hp h64 out
      obtain ⟨rs, q2, hq2, hwf2⟩ := ih q1 hwf1
      exact ⟨Res.pop b x :: rs, q2, by simp only [SPSC_Queue.run, hq1, hq2], hwf2⟩

theorem run_capacity_one (slots : List T) (ops : List (Op T)) :
    (SPSC_Queue.fresh slots : SPSC_Queue T 1).run ops =
      some (ops.map declined, SPSC_Queue.fresh slots) := by
  have hfull : nextIndex 1 (SPSC_Queue.fresh slots : SPSC_Queue T 1).tail =
      (SPSC_Queue.fresh slots : SPSC_Queue T 1).head := by
    show nextIndex 1 0 = 0
    decide
  have hempty : (SPSC_Queue.fresh slots : SPSC_Queue T 1).head =
      (SPSC_Queue.fresh slots : SPSC_Queue T 1).tail := rfl
  induction ops with
  | nil => rfl
  | cons op ops ih =>
    cases op with
    | push v =>
      simp only [SPSC_Queue.run, SPSC_Queue.push_full _ v hfull, ih, List.map_cons, declined]
    | pop out =>
      simp only [SPSC_Queue.run, SPSC_Queue.pop_empty _ out hempty, ih, List.map_cons,
        declined]

end SPSC_Queue

theorem int_sub_mod_of_close {N H L : Nat} (h1 : H ≤ L) (h2 : L < H + N) :
    (((L % N : Nat) : Int) - ((H % N : Nat) : Int)) % (N : Int) = ((L - H : Nat) : Int) := by
  rw [Int.natCast_mod, Int.natCast_mod, ← Int.sub_emod, ← Nat.cast_sub h1]
  have hlt : L - H < N := by omega
  exact_mod_cast Nat.mod_eq_of_lt hlt

/-! ## Occupancy, bounds and the degenerate capacity -/

/-- C13. For every power-of-two capacity `N >= 2`, in every state reachable from the
freshly constructed queue by a sequence of `push` and `pop` calls, the number of stored
elements (successful pushes minus successful pops) equals `(tail - head) mod N` and is at
most `N - 1`; `pop` returns `false` exactly when that number is 0, which is when
`head == tail`, and `push` returns `false` exactly when it is `N - 1`, which is when
`(tail + 1) mod N == head`. -/
theorem stored_count_invariant {T : Type} (N : Nat) (_hN : 2 ≤ N) (h64 : N < 2 ^ 64)
    (hp : ∃ k, N = 2 ^ k) (slots : List T) (hlen : slots.length = N) (ops : List (Op T)) :
    ∃ (rs : List (Res T)) (q1 : SPSC_Queue T N),
      (SPSC_Queue.fresh slots : SPSC_Queue T N).run ops = some (rs, q1) ∧
      (deliveredValues rs).length ≤ (acceptedValues ops rs).length ∧
      ((q1.tail : Int) - (q1.head : Int)) % (N : Int) = (storedCount ops rs : Int) ∧
      storedCount ops rs ≤ N - 1 ∧
      (∀ out : T, ∃ (b : Bool) (x : T) (q2 : SPSC_Queue T N),
        q1.pop out = some (b, x, q2) ∧ (b = false ↔ storedCount ops rs = 0)) ∧
      (storedCount ops rs = 0 ↔ q1.head = q1.tail) ∧
      (∀ v : T, ∃ (b : Bool) (q2 : SPSC_Queue T N),
        q1.push v = some (b, q2) ∧ (b = false ↔ storedCount ops rs = N - 1)) ∧
      (storedCount ops rs = N - 1 ↔ (q1.tail + 1) % N = q1.head) := by
  have h0 := pow2_pos hp
  obtain ⟨rs, q1, hrun, hrep⟩ :=
    SPSC_Queue.Rep.run_rep hp h64 ops _ _ _ (SPSC_Queue.Rep.fresh slots hlen)
  rw [List.nil_append, Nat.zero_add] at hrep
  have h1 := hrep.2.1
  have h2 := hrep.2.2.1
  have hhead := hrep.2.2.2.1
  have htail := hrep.2.2.2.2.1
  refine ⟨rs, q1, hrun, h1, ?_, ?_, ?_, ?_, ?_, ?_⟩
  · rw [hhead, htail]
    exact int_sub_mod_of_close h1 (by omega)
  · unfold storedCount; omega
  · intro out
    by_cases hne : (deliveredValues rs).length < (acceptedValues ops rs).length
    · obtain ⟨q2, hq2, -⟩ := hrep.pop_ok hp h64 out hne
      refine ⟨true, _, q2, hq2, ?_⟩
      unfold storedCount
      constructor
      · intro h; cases h
      · intro h; omega
    · refine ⟨false, out, q1, hrep.pop_when_empty h0 out (by omega), ?_⟩
      unfold storedCount
      constructor
      · intro _; omega
      · intro _; rfl
  · rw [hrep.empty_iff h0]
    unfold storedCount
    omega
  · intro v
    by_cases hroom : (acceptedValues ops rs).length + 1 < (deliveredValues rs).length + N
    · obtain ⟨q2, hq2, -⟩ := hrep.push_ok hp h64 v hroom
      refine ⟨true, q2, hq2, ?_⟩
      unfold storedCount
      constructor
      · intro h; cases h
      · intro h; omega
    · refine ⟨false, q1, hrep.push_when_full hp h64 v (by omega), ?_⟩
      unfold storedCount
      constructor
      · intro _; omega
      · intro _; rfl
  · rw [htail, hhead, Nat.mod_add_mod, succ_mod_eq_iff h0 h1 h2]
    unfold storedCount
    omega

theorem stored_count_invariant_witness :
    (2 ≤ 4 ∧ 4 < 2 ^ 64 ∧ (∃ k, 4 = 2 ^ k) ∧ [0, 0, 0, 0].length = 4) ∧
    ((SPSC_Queue.fresh [0, 0, 0, 0] : SPSC_Queue Nat 4).run
        [Op.push 7, Op.push 8, Op.pop 0, Op.pop 0, Op.push 9, Op.push 10, Op.push 11] =
      some ([Res.push true, Res.push true, Res.pop true 7, Res.pop true 8, Res.push true,
        Res.push true, Res.push true], ⟨2, 1, [11, 8, 9, 10]⟩)) ∧
    ∃ (rs : List (Res Nat)) (q1 : SPSC_Queue Nat 4),
      (SPSC_Queue.fresh [0, 0, 0, 0] : SPSC_Queue Nat 4).run
        [Op.push 7, Op.push 8, Op.pop 0, Op.pop 0, Op.push 9, Op.push 10, Op.push 11] =
        some (rs, q1) ∧
      (deliveredValues rs).length ≤
        (acceptedValues
          [Op.push 7, Op.push 8, Op.pop 0, Op.pop 0, Op.push 9, Op.push 10, Op.push 11]
          rs).length ∧
      ((q1.tail : Int) - (q1.head : Int)) % ((4 : Nat) : Int) =
        (storedCount
          [Op.push 7, Op.push 8, Op.pop 0, Op.pop 0, Op.push 9, Op.push 10, Op.push 11]
          rs : Int) ∧
      storedCount
        [Op.push 7, Op.push 8, Op.pop 0, Op.pop 0, Op.push 9, Op.push 10, Op.push 11]
        rs ≤ 4 - 1 ∧
      (∀ out : Nat, ∃ (b : Bool) (x : Nat) (q2 : SPSC_Queue Nat 4),
        q1.pop out = some (b, x, q2) ∧
          (b = false ↔ storedCount
            [Op.push 7, Op.push 8, Op.pop 0, Op.pop 0, Op.push 9, Op.push 10, Op.push 11]
            rs = 0)) ∧
      (storedCount
          [Op.push 7, Op.push 8, Op.pop 0, Op.pop 0, Op.push 9, Op.push 10, Op.push 11]
          rs = 0 ↔ q1.head = q1.tail) ∧
      (∀ v : Nat, ∃ (b : Bool) (q2 : SPSC_Queue Nat 4),
        q1.push v = some (b, q2) ∧
          (b = false ↔ storedCount
            [Op.push 7, Op.push 8, Op.pop 0, Op.pop 0, Op.push 9, Op.push 10, Op.push 11]
            rs = 4 - 1)) ∧
      (storedCount
          [Op.push 7, Op.push 8, Op.pop 0, Op.pop 0, Op.push 9, Op.push 10, Op.push 11]
          rs = 4 - 1 ↔ (q1.tail + 1) % 4 = q1.head) :=
  ⟨⟨by decide, by decide, ⟨2, rfl⟩, rfl⟩, by decide,
    stored_count_invariant 4 (by decide) (by decide) ⟨2, rfl⟩ [0, 0, 0, 0] rfl
      [Op.push 7, Op.push 8, Op.pop 0, Op.pop 0, Op.push 9, Op.push 10, Op.push 11]⟩

/-- C14. For every power-of-two capacity `N >= 1`, `head < N` and `tail < N` hold in the
freshly constructed queue and are preserved by every `push` and every `pop`, successful or
not, neither of which accesses a slot outside the array; hence every sequence of calls on
a fresh queue runs without such an access and ends in a state whose cursors index the
`N`-slot array. -/
theorem cursors_stay_in_bounds {T : Type} (N : Nat) (hp : ∃ k, N = 2 ^ k)
    (h64 : N < 2 ^ 64) :
    (∀ slots : List T, slots.length = N → (SPSC_Queue.fresh slots : SPSC_Queue T N).WF) ∧
    (∀ q : SPSC_Queue T N, q.WF → ∀ v : T,
      ∃ (b : Bool) (q1 : SPSC_Queue T N), q.push v = some (b, q1) ∧ q1.WF) ∧
    (∀ q : SPSC_Queue T N, q.WF → ∀ out : T,
      ∃ (b : Bool) (x : T) (q1 : SPSC_Queue T N), q.pop out = some (b, x, q1) ∧ q1.WF) ∧
    (∀ slots : List T, slots.length = N → ∀ ops : List (Op T),
      ∃ (rs : List (Res T)) (q1 : SPSC_Queue T N),
        (SPSC_Queue.fresh slots : SPSC_Queue T N).run ops = some (rs, q1) ∧ q1.WF ∧
        (q1.buffer[q1.tail]?).isSome = true ∧ (q1.buffer[q1.head]?).isSome = true) := by
  have h0 := pow2_pos hp
  have hfresh : ∀ slots : List T, slots.length = N →
      (SPSC_Queue.fresh slots : SPSC_Queue T N).WF := fun slots hlen => ⟨h0, h0, hlen⟩
  refine ⟨hfresh, fun q hwf v => hwf.push hp h64 v, fun q hwf out => hwf.pop hp h64 out, ?_⟩
  intro slots hlen ops
  obtain ⟨rs, q1, hrun, hwf⟩ := SPSC_Queue.WF.run hp h64 ops _ (hfresh slots hlen)
  refine ⟨rs, q1, hrun, hwf, ?_, ?_⟩
  · rw [List.getElem?_eq_getElem (by rw [hwf.2.2]; exact hwf.2.1)]; rfl
  · rw [List.getElem?_eq_getElem (by rw [hwf.2.2]; exact hwf.1)]; rfl

theorem cursors_stay_in_bounds_witness :
    ((∃ k, 4 = 2 ^ k) ∧ 4 < 2 ^ 64 ∧ [0, 0, 0, 0].length = 4 ∧
      (⟨3, 2, [5, 6, 7, 8]⟩ : SPSC_Queue Nat 4).WF) ∧
    (SPSC_Queue.fresh [0, 0, 0, 0] : SPSC_Queue Nat 4).WF ∧
    (∃ (b : Bool) (q1 : SPSC_Queue Nat 4),
      (⟨3, 2, [5, 6, 7, 8]⟩ : SPSC_Queue Nat 4).push 9 = some (b, q1) ∧ q1.WF) ∧
    (∃ (b : Bool) (x : Nat) (q1 : SPSC_Queue Nat 4),
      (⟨3, 2, [5, 6, 7, 8]⟩ : SPSC_Queue Nat 4).pop 0 = some (b, x, q1) ∧ q1.WF) ∧
    ∃ (rs : List (Res Nat)) (q1 : SPSC_Queue Nat 4),
      (SPSC_Queue.fresh [0, 0, 0, 0] : SPSC_Queue Nat 4).run
        [Op.push 1, Op.push 2, Op.push 3, Op.push 4, Op.pop 0] = some (rs, q1) ∧ q1.WF ∧
      (q1.buffer[q1.tail]?).isSome = true ∧ (q1.buffer[q1.head]?).isSome = true :=
  ⟨⟨⟨2, rfl⟩, by decide, rfl, ⟨by decide, by decide, rfl⟩⟩,
    (cursors_stay_in_bounds 4 ⟨2, rfl⟩ (by decide)).1 [0, 0, 0, 0] rfl,
    (cursors_stay_in_bounds 4 ⟨2, rfl⟩ (by decide)).2.1 ⟨3, 2, [5, 6, 7, 8]⟩
      ⟨by decide, by decide, rfl⟩ 9,
    (cursors_stay_in_bounds 4 ⟨2, rfl⟩ (by decide)).2.2.1 ⟨3, 2, [5, 6, 7, 8]⟩
      ⟨by decide, by decide, rfl⟩ 0,
    (cursors_stay_in_bounds 4 ⟨2, rfl⟩ (by decide)).2.2.2 [0, 0, 0, 0] rfl
      [Op.push 1, Op.push 2, Op.push 3, Op.push 4, Op.pop 0]⟩

/-- C17. Capacity `N = 1` satisfies the condition of the `static_assert`, and a queue of
that capacity never holds an element: whatever calls are applied to the freshly constructed
queue, every `push` returns `false`, every `pop` returns `false` leaving `out` as it was,
and the state stays the fresh one, `head` and `tail` both 0. -/
theorem capacity_one_never_holds {T : Type} (slots : List T) (_hlen : slots.length = 1)
    (ops : List (Op T)) :
    capacityCheck 1 = true ∧
    ∃ q1 : SPSC_Queue T 1,
      (SPSC_Queue.fresh slots : SPSC_Queue T 1).run ops = some (ops.map declined, q1) ∧
      q1.head = 0 ∧ q1.tail = 0 ∧ q1.buffer = slots ∧
      (∀ v : T, q1.push v = some (false, q1)) ∧
      (∀ out : T, q1.pop out = some (false, out, q1)) := by
  refine ⟨by decide, SPSC_Queue.fresh slots, SPSC_Queue.run_capacity_one slots ops, rfl, rfl,
    rfl, ?_, ?_⟩
  · intro v
    have h := SPSC_Queue.run_capacity_one slots [Op.push v]
    cases hp : (SPSC_Queue.fresh slots : SPSC_Queue T 1).push v with
    | none => simp [SPSC_Queue.run, hp] at h
    | some r =>
      obtain ⟨b, q2⟩ := r
      simp only [SPSC_Queue.run, hp, List.map_cons, List.map_nil, declined, Option.some.injEq,
        Prod.mk.injEq, List.cons.injEq, Res.push.injEq, and_true] at h
      rw [h.1, h.2]
  · intro out
    exact SPSC_Queue.pop_empty _ out rfl

theorem capacity_one_never_holds_witness :
    [5].length = 1 ∧ capacityCheck 1 = true ∧
    ∃ q1 : SPSC_Queue Nat 1,
      (SPSC_Queue.fresh [5] : SPSC_Queue Nat 1).run [Op.push 7, Op.pop 3, Op.push 8] =
        some ([Op.push 7, Op.pop 3, Op.push 8].map declined, q1) ∧
      q1.head = 0 ∧ q1.tail = 0 ∧ q1.buffer = [5] ∧
      (∀ v : Nat, q1.push v = some (false, q1)) ∧
      (∀ out : Nat, q1.pop out = some (false, out, q1)) :=
  ⟨rfl, capacity_one_never_holds [5] rfl [Op.push 7, Op.pop 3, Op.push 8]⟩
